import Mathlib

/-!
# Hangman (Hangman.cpp): shallow embedding and properties

A `std::string` is a `List Char`, a C `char` is a `Char`, the `int` counters are `Int`
(no counter of the program leaves the range `0..7`, so no wrap-around is involved).
An access `s[i]` with `i` outside the string is undefined in the source; an operation
that would perform one returns `none`.

The standard input is the list of the characters still to be read. The C library
functions `isspace`, `isalpha` and `tolower` are those of the default "C" locale, and
the algorithm of `srand` and `rand`, which the C standard leaves open, is a parameter.
-/

namespace Hangman

/-! ## Constants of `main` -/

/-- The constant `NUM_WRONG_ALLOWED` of `main`. -/
def NUM_WRONG_ALLOWED : Int := 7

/-! ## `letterIsInWord` -/

/-- The call `std::find(first, last, letter)` on a string: the index of the first
occurrence of `letter`, or the length of the string (the `end()` position). -/
def find : List Char → Char → Nat
  | [], _ => 0
  | c :: cs, letter => if c = letter then 0 else find cs letter + 1

/-- The function `letterIsInWord`: `std::find(...) != word.end()`. -/
def letterIsInWord (letter : Char) (word : List Char) : Bool :=
  find word letter != word.length

/-! ## `recordGuess` -/

/-- The loop `for (int i = 0; i < word.length(); i++)` of `recordGuess`, with `k`
iterations left and the counter at `i`: when `guessedLetter == word[i]` the position
`i` of `guess` is overwritten. Writing outside `guess` is undefined (`none`). -/
def recordGuessLoop (word : List Char) (guessedLetter : Char) :
    Nat → Nat → List Char → Option (List Char)
  | 0, _, guess => some guess
  | k + 1, i, guess =>
    if some guessedLetter = word[i]? then
      if i < guess.length then
        recordGuessLoop word guessedLetter k (i + 1) (guess.set i guessedLetter)
      else none
    else recordGuessLoop word guessedLetter k (i + 1) guess

/-- The function `recordGuess`; the by-reference parameter `guess` is returned. -/
def recordGuess (word guess : List Char) (guessedLetter : Char) : Option (List Char) :=
  recordGuessLoop word guessedLetter word.length 0 guess

/-! ## `isWin` -/

/-- The function `isWin`: the loop returns `false` at the first `' '`, and `true`
when the string has been scanned to its end. -/
def isWin : List Char → Bool
  | [] => true
  | c :: cs => if c = ' ' then false else isWin cs

/-! ## The round loop of `main` -/

/-- The variables of `main` that a round changes: `guessWord` and `numWrong`. -/
structure RoundState where
  guessWord : List Char
  numWrong : Int
  deriving DecidableEq

/-- The loop `for (int i = 0; i < word.length(); ++i) guessWord += " ";` with `k`
iterations left. -/
def fillBlanks : Nat → List Char → List Char
  | 0, guessWord => guessWord
  | k + 1, guessWord => fillBlanks k (guessWord ++ [' '])

/-- The state at the start of a round: `guessWord = ""` followed by the blank-filling
loop, and `numWrong = 0`. -/
def initState (word : List Char) : RoundState :=
  { guessWord := fillBlanks word.length [], numWrong := 0 }

/-- The state change of one iteration of the inner `do` loop, for the letter that
`getGuess()` returned: `recordGuess` when `letterIsInWord`, else `numWrong++`. -/
def roundBody (word : List Char) (s : RoundState) (letter : Char) : Option RoundState :=
  if letterIsInWord letter word then
    (recordGuess word s.guessWord letter).map (fun g => { s with guessWord := g })
  else
    some { s with numWrong := s.numWrong + 1 }

/-- The condition `!isWin(guessWord) && numWrong < NUM_WRONG_ALLOWED` of the inner loop. -/
def loopCondition (s : RoundState) : Bool :=
  !isWin s.guessWord && decide (s.numWrong < NUM_WRONG_ALLOWED)

/-- How a run of the inner loop on a finite list of guesses stands at its end. -/
inductive RoundResult where
  /-- The loop condition became false; `rest` are the guesses not consumed. -/
  | finished (s : RoundState) (rest : List Char)
  /-- The guesses are used up and the loop is at the top of a further iteration. -/
  | awaitingInput (s : RoundState)
  /-- An iteration wrote outside `guessWord`. -/
  | undefinedBehaviour
  deriving DecidableEq

/-- The inner `do { ... } while (...)` loop of `main`, entered in state `s`, with the
successive results of `getGuess()` given as a list. The body runs before the
condition is tested. -/
def roundLoop (word : List Char) : RoundState → List Char → RoundResult
  | s, [] => RoundResult.awaitingInput s
  | s, letter :: rest =>
    match roundBody word s letter with
    | none => RoundResult.undefinedBehaviour
    | some s' => if loopCondition s' then roundLoop word s' rest else RoundResult.finished s' rest

/-- One round of `main` after `genSecretWord` returned `word`. -/
def playRound (word guesses : List Char) : RoundResult :=
  roundLoop word (initState word) guesses

/-- The states in which the body of the inner loop is entered or left during a round:
the initial state, and the state after an iteration that was entered either first
(a `do` loop tests its condition only afterwards) or because the condition held. -/
inductive Reachable (word : List Char) : RoundState → Prop where
  | init : Reachable word (initState word)
  | step (s s' : RoundState) (letter : Char) :
      Reachable word s → (s = initState word ∨ loopCondition s = true) →
      roundBody word s letter = some s' → Reachable word s'

/-- The loop `for (...) std::cout << ' ' << word[i] << ' ';` of the loss branch. -/
def revealWord : List Char → List Char
  | [] => []
  | c :: cs => ' ' :: c :: ' ' :: revealWord cs

/-- The text printed by the loss branch after the revealed word. -/
def lossBanner : List Char :=
  "\n".toList ++ "--------------------------\n".toList ++ "Game over. You lost.\n".toList ++
    "--------------------------\n".toList

/-- The text printed by the win branch. -/
def winBanner : List Char :=
  "--------------------------\n".toList ++ "You Win!!!! :)\n".toList ++
    "--------------------------\n".toList

/-- The output of the `if (!isWin(guessWord)) ... else ...` statement after the loop. -/
def roundReport (word : List Char) (s : RoundState) : List Char :=
  if !isWin s.guessWord then revealWord word ++ lossBanner else winBanner

/-! ## `showStatus` -/

/-- The function `showStatus`: for each character a space, the character (an
underscore for `' '`) and a space; then a newline. -/
def showStatus : List Char → List Char
  | [] => ['\n']
  | c :: cs => ' ' :: (if c = ' ' then '_' else c) :: ' ' :: showStatus cs

/-! ## `drawHangman` -/

/-- A string literal sent to `std::cout`; none of its characters is a body part. -/
def lit (s : String) : List (Char × Bool) :=
  s.toList.map (fun c => (c, false))

/-- The characters `drawHangman(x)` prints, in order. The flag is `true` exactly for a
character printed by the then-branch of one of the seven `if (x > k)` statements,
the body parts of the figure; the `'O'` of `x > 2` has no else-branch. -/
def drawHangmanCells (x : Int) : List (Char × Bool) :=
  lit "-------\n" ++
  lit "|/    |\n" ++
  lit "|     " ++
  (if x > 0 then [('O', true)] else [(' ', false)]) ++
  [('\n', false)] ++
  lit "|     " ++
  (if x > 1 then [('|', true)] else [(' ', false)]) ++
  [('\n', false)] ++
  lit "|    " ++
  (if x > 3 then [('/', true)] else [(' ', false)]) ++
  (if x > 2 then [('O', true)] else []) ++
  (if x > 4 then [('\\', true)] else [(' ', false)]) ++
  [('\n', false)] ++
  lit "|    " ++
  (if x > 5 then [('/', true)] else [(' ', false)]) ++
  [(' ', false)] ++
  (if x > 6 then [('\\', true)] else [(' ', false)]) ++
  [('\n', false)] ++
  [('|', false), ('\n', false)] ++
  lit "----------------------------------\n"

/-- The text `drawHangman(x)` prints. -/
def drawHangman (x : Int) : List Char :=
  (drawHangmanCells x).map Prod.fst

/-- A printed character with the line and column at which it appears. -/
structure Cell where
  line : Nat
  col : Nat
  char : Char
  part : Bool
  deriving DecidableEq

/-- Lays printed characters out on lines and columns, from line `l` column `c`: a
newline moves to the start of the next line and occupies no position. -/
def place : List (Char × Bool) → Nat → Nat → List Cell
  | [], _, _ => []
  | (ch, b) :: rest, l, c =>
    if ch = '\n' then place rest (l + 1) 0
    else { line := l, col := c, char := ch, part := b } :: place rest l (c + 1)

/-- The figure of `drawHangman(x)` as positioned characters. -/
def figure (x : Int) : List Cell :=
  place (drawHangmanCells x) 0 0

/-- The number of body parts in the figure of `drawHangman(x)`. -/
def bodyParts (x : Int) : Nat :=
  ((figure x).filter (fun p => p.part)).length

/-! ## `getGuess` -/

/-- The C library's `isspace` in the default "C" locale (the program never changes the
locale): the characters that `std::cin >> l` skips before it extracts one. -/
def isspace (c : Char) : Bool :=
  c = ' ' || c = '\t' || c = '\n' || c = '\x0b' || c = '\x0c' || c = '\r'

/-- The C library's `isalpha` in the default "C" locale: the 52 ASCII letters. -/
def isalpha (c : Char) : Bool :=
  (decide ('A' ≤ c) && decide (c ≤ 'Z')) || (decide ('a' ≤ c) && decide (c ≤ 'z'))

/-- The C library's `tolower` in the default "C" locale. -/
def tolower (c : Char) : Char :=
  if 'A' ≤ c ∧ c ≤ 'Z' then Char.ofNat (c.toNat + 32) else c

/-- The extraction `std::cin >> l` into a `char`: leading whitespace is skipped and
the next character is taken; the rest of the input stays in the stream. At the end of
the input the extraction fails and `l` is not assigned (`none`). -/
def extractChar : List Char → Option (Char × List Char)
  | [] => none
  | c :: rest => if isspace c then extractChar rest else some (c, rest)

/-- The text `"Enter your guess: "`. -/
def promptText : List Char := "Enter your guess: ".toList

/-- The text `"Invalid, Please try again.\n"`. -/
def invalidText : List Char := "Invalid, Please try again.\n".toList

/-- The `do { ... } while (!isValid)` loop of `getGuess` on the standard input `input`,
for at most `fuel` iterations: the returned letter `tolower(l)`, the input left in the
stream, and the text printed. There is no result (`none`) when an extraction fails:
`l` then keeps a value that was not read from the input. -/
def getGuessLoop : Nat → List Char → Option (Char × List Char × List Char)
  | 0, _ => none
  | fuel + 1, input =>
    match extractChar input with
    | none => none
    | some (l, rest) =>
      if isalpha l then some (tolower l, rest, promptText)
      else (getGuessLoop fuel rest).map
        (fun r => (r.1, r.2.1, promptText ++ invalidText ++ r.2.2))

/-- The function `getGuess`. Every iteration that extracts a character shortens the
input, so `input.length` iterations are enough. -/
def getGuess (input : List Char) : Option (Char × List Char × List Char) :=
  getGuessLoop input.length input

/-- The inner loop of `main` with `getGuess()` reading the standard input `input`, for at
most `fuel` iterations; `awaitingInput` when `getGuess` finds no further letter. -/
def roundLoopStdin (word : List Char) : Nat → RoundState → List Char → RoundResult
  | 0, s, _ => RoundResult.awaitingInput s
  | fuel + 1, s, input =>
    match getGuess input with
    | none => RoundResult.awaitingInput s
    | some (letter, rest, _) =>
      match roundBody word s letter with
      | none => RoundResult.undefinedBehaviour
      | some s' =>
        if loopCondition s' then roundLoopStdin word fuel s' rest
        else RoundResult.finished s' rest

/-- One round of `main` on the standard input `input`. Every iteration consumes at least
one character, so `input.length` iterations are enough. -/
def playRoundStdin (word input : List Char) : RoundResult :=
  roundLoopStdin word input.length (initState word) input

/-- The arguments of the calls `drawHangman(numWrong)` that the inner loop makes, in
order, when run on the given guesses: one call at the top of every iteration, also of
the iteration that then waits in `getGuess()`. -/
def roundDrawCalls (word : List Char) : RoundState → List Char → List Int
  | s, [] => [s.numWrong]
  | s, letter :: rest =>
    s.numWrong ::
      (match roundBody word s letter with
       | none => []
       | some s' => if loopCondition s' then roundDrawCalls word s' rest else [])

/-- The states of a round together with the letters guessed so far, in order. -/
inductive ReachableAfter (word : List Char) : List Char → RoundState → Prop where
  | init : ReachableAfter word [] (initState word)
  | step (gs : List Char) (s s' : RoundState) (letter : Char) :
      ReachableAfter word gs s → (s = initState word ∨ loopCondition s = true) →
      roundBody word s letter = some s' → ReachableAfter word (gs ++ [letter]) s'

/-! ## `genSecretWord` -/

/-- The pseudo-random generator of the C library, whose algorithm is left to the
implementation: the generator state that `srand(seed)` sets, and the value that
`rand()` returns in a state together with the state it leaves. By the C standard the
values that follow `srand(seed)` depend on the seed alone, so `srand` does not take the
state before the call. -/
structure Generator where
  srand : Nat → Nat
  rand : Nat → Nat × Nat

/-- The function `genSecretWord` on the dictionary `d`, called when `std::time(NULL)` is
`clock` and the generator is in state `state`: the word `d[index]` and the new
generator state. The seed is the clock converted to `unsigned int`. The result is
undefined (`none`) when `d.size()` is 0, a modulo by zero, or when `index` is out of
range. -/
def genSecretWord (lib : Generator) (d : List (List Char)) (clock : Nat) (_state : Nat) :
    Option (List Char × Nat) :=
  let seeded := lib.srand (clock % 2 ^ 32)
  let r := lib.rand seeded
  if d.length = 0 then none
  else
    let index := r.1 % d.length
    d[index]?.map (fun w => (w, r.2))

/-- The text of `k` rejections by `getGuess`: each is the prompt followed by the
invalid-input line. -/
def reprompts : Nat → List Char
  | 0 => []
  | k + 1 => promptText ++ invalidText ++ reprompts k

/-- The letters that successive calls of `getGuess` return on an input: its letters, in
lower case. -/
def lettersOf (input : List Char) : List Char :=
  (input.filter isalpha).map tolower

/-- Applies `f` to the unconsumed input of a finished round. -/
def RoundResult.mapRest (f : List Char → List Char) : RoundResult → RoundResult
  | RoundResult.finished s rest => RoundResult.finished s (f rest)
  | RoundResult.awaitingInput s => RoundResult.awaitingInput s
  | RoundResult.undefinedBehaviour => RoundResult.undefinedBehaviour

/-! ## Specification of the reveal state -/

/-- The reveal state that shows exactly the letters of `seen`: position `i` holds
`word[i]` when that letter is in `seen`, and the placeholder otherwise. -/
def revealed (word seen : List Char) : List Char :=
  word.map (fun c => if c ∈ seen then c else ' ')

/-! ## Basic lemmas -/

theorem find_le_length (word : List Char) (letter : Char) :
    find word letter ≤ word.length := by
  induction word with
  | nil => simp [find]
  | cons c cs ih =>
    simp only [find]
    split
    · simp
    · simpa using ih

theorem find_eq_length_iff (word : List Char) (letter : Char) :
    find word letter = word.length ↔ letter ∉ word := by
  induction word with
  | nil => simp [find]
  | cons c cs ih =>
    simp only [find]
    by_cases h : c = letter
    · subst h; simp
    · have h2 : ¬ letter = c := fun e => h e.symm
      simp [h, h2, ih]

theorem letterIsInWord_iff (letter : Char) (word : List Char) :
    letterIsInWord letter word = true ↔ letter ∈ word := by
  unfold letterIsInWord
  rw [bne_iff_ne, Ne, find_eq_length_iff]
  exact not_not

theorem letterIsInWord_eq_false_iff (letter : Char) (word : List Char) :
    letterIsInWord letter word = false ↔ letter ∉ word := by
  rw [← letterIsInWord_iff]; simp

/-- The loop of `recordGuess` from counter `i` on, when `guess` is long enough: it is
defined, keeps the length, and position `j` holds the guessed letter exactly where
`j ≥ i` and `word[j]` is that letter. -/
theorem recordGuessLoop_spec (word : List Char) (c : Char) :
    ∀ (k i : Nat) (guess : List Char), i + k = word.length → word.length ≤ guess.length →
      ∃ g, recordGuessLoop word c k i guess = some g ∧ g.length = guess.length ∧
        ∀ j : Nat, g[j]? = if i ≤ j ∧ word[j]? = some c then some c else guess[j]? := by
  intro k
  induction k with
  | zero =>
    intro i guess hik _
    refine ⟨guess, rfl, rfl, fun j => ?_⟩
    split
    · rename_i h
      have : j < word.length := by
        by_contra hj
        have : word[j]? = none := List.getElem?_eq_none (by omega)
        rw [this] at h; exact absurd h.2 (by simp)
      omega
    · rfl
  | succ k ih =>
    intro i guess hik hlen
    simp only [recordGuessLoop]
    by_cases hc : some c = word[i]?
    · have hi : i < guess.length := by omega
      rw [if_pos hc, if_pos hi]
      obtain ⟨g, hg, hl, hj⟩ := ih (i + 1) (guess.set i c) (by omega) (by simpa using hlen)
      refine ⟨g, hg, by simpa using hl, fun j => ?_⟩
      rw [hj j]
      by_cases hji : j = i
      · subst hji
        simp [← hc, hi]
      · have h1 : (i + 1 ≤ j) ↔ (i ≤ j) := by omega
        have h2 : (guess.set i c)[j]? = guess[j]? := by
          rw [List.getElem?_set_ne (fun e => hji e.symm)]
        simp only [h1, h2]
    · rw [if_neg hc]
      obtain ⟨g, hg, hl, hj⟩ := ih (i + 1) guess (by omega) hlen
      refine ⟨g, hg, hl, fun j => ?_⟩
      rw [hj j]
      by_cases hji : j = i
      · subst hji
        have : ¬ (word[j]? = some c) := fun e => hc e.symm
        simp [this]
      · have h1 : (i + 1 ≤ j) ↔ (i ≤ j) := by omega
        simp only [h1]

theorem recordGuess_spec (word guess : List Char) (c : Char)
    (hlen : guess.length = word.length) :
    ∃ g, recordGuess word guess c = some g ∧ g.length = guess.length ∧
      ∀ j : Nat, g[j]? = if word[j]? = some c then some c else guess[j]? := by
  obtain ⟨g, hg, hl, hj⟩ :=
    recordGuessLoop_spec word c word.length 0 guess (by omega) (by omega)
  exact ⟨g, hg, hl, fun j => by simpa using hj j⟩

theorem isWin_iff (guess : List Char) : isWin guess = true ↔ ∀ c ∈ guess, c ≠ ' ' := by
  induction guess with
  | nil => simp [isWin]
  | cons c cs ih =>
    simp only [isWin]
    by_cases h : c = ' '
    · subst h; simp
    · simp [h, ih]


theorem recordGuessLoop_absent (word : List Char) (c : Char) (h : c ∉ word) :
    ∀ (k i : Nat) (guess : List Char), recordGuessLoop word c k i guess = some guess := by
  intro k
  induction k with
  | zero => intro i guess; rfl
  | succ k ih =>
    intro i guess
    have hc : ¬ (some c = word[i]?) := by
      intro e
      exact h (List.getElem?_mem e.symm)
    simp only [recordGuessLoop]
    rw [if_neg hc]
    exact ih (i + 1) guess

theorem showStatus_length (guess : List Char) :
    (showStatus guess).length = 3 * guess.length + 1 := by
  induction guess with
  | nil => rfl
  | cons c cs ih => simp only [showStatus, List.length_cons, ih]; omega

theorem showStatus_getElem? (guess : List Char) :
    ∀ (i : Nat) (c : Char), guess[i]? = some c →
      (showStatus guess)[3 * i]? = some ' ' ∧
      (showStatus guess)[3 * i + 1]? = some (if c = ' ' then '_' else c) ∧
      (showStatus guess)[3 * i + 2]? = some ' ' := by
  induction guess with
  | nil => intro i c h; simp at h
  | cons d ds ih =>
    intro i c h
    cases i with
    | zero =>
      simp only [List.getElem?_cons_zero, Option.some.injEq] at h
      subst h
      simp [showStatus]
    | succ i =>
      simp only [List.getElem?_cons_succ] at h
      have e0 : 3 * (i + 1) = 3 * i + 1 + 1 + 1 := by omega
      have e1 : 3 * (i + 1) + 1 = 3 * i + 1 + 1 + 1 + 1 := by omega
      have e2 : 3 * (i + 1) + 2 = 3 * i + 2 + 1 + 1 + 1 := by omega
      obtain ⟨h0, h1, h2⟩ := ih i c h
      refine ⟨?_, ?_, ?_⟩
      · rw [e0]; simpa only [showStatus, List.getElem?_cons_succ] using h0
      · rw [e1]; simpa only [showStatus, List.getElem?_cons_succ] using h1
      · rw [e2]; simpa only [showStatus, List.getElem?_cons_succ] using h2

/-! ## Claims on `recordGuess`, `isWin`, `showStatus` and `drawHangman` -/

/-- C1: for a reveal state `g` as long as the secret word `w`, `recordGuess w g c`
returns a reveal state of that length whose position `i` holds `c` where `w[i] = c`
and the character of `g` elsewhere. -/
theorem recordGuess_sets_matching_positions (w g : List Char) (c : Char)
    (hlen : g.length = w.length) :
    ∃ g', recordGuess w g c = some g' ∧ g'.length = w.length ∧
      ∀ i : Nat, i < w.length →
        (w[i]? = some c → g'[i]? = some c) ∧ (w[i]? ≠ some c → g'[i]? = g[i]?) := by
  obtain ⟨g', hg, hl, hj⟩ := recordGuess_spec w g c hlen
  refine ⟨g', hg, by omega, fun i _ => ⟨fun h => ?_, fun h => ?_⟩⟩
  · rw [hj i, if_pos h]
  · rw [hj i, if_neg h]

/-- C1, at the word "hello", the reveal state "h    " and the letter 'l'. -/
theorem recordGuess_sets_matching_positions_witness :
    "h    ".toList.length = "hello".toList.length ∧
    recordGuess "hello".toList "h    ".toList 'l' = some "h ll ".toList ∧
    ∃ g', recordGuess "hello".toList "h    ".toList 'l' = some g' ∧
      g'.length = "hello".toList.length ∧
      ∀ i : Nat, i < "hello".toList.length →
        ("hello".toList[i]? = some 'l' → g'[i]? = some 'l') ∧
        ("hello".toList[i]? ≠ some 'l' → g'[i]? = "h    ".toList[i]?) :=
  ⟨by decide, by decide,
    recordGuess_sets_matching_positions "hello".toList "h    ".toList 'l' (by decide)⟩

/-- C2: `isWin g` is true if and only if no character of `g` is the placeholder `' '`
(so it is true of the empty reveal state). -/
theorem isWin_iff_no_placeholder (g : List Char) :
    (isWin g = true ↔ ∀ c ∈ g, c ≠ ' ') ∧ isWin [] = true :=
  ⟨isWin_iff g, rfl⟩

/-- C2, at the reveal states "cat", "c t" and the empty one. -/
theorem isWin_iff_no_placeholder_witness :
    isWin "cat".toList = true ∧ isWin "c t".toList = false ∧ isWin [] = true :=
  ⟨(isWin_iff_no_placeholder "cat".toList).1.2 (by decide), by decide,
    (isWin_iff_no_placeholder []).2⟩

/-- C6: for a reveal state `g` as long as the secret word `w` and a letter `c` with
`letterIsInWord c w` false, `recordGuess w g c` returns `g` unchanged. -/
theorem recordGuess_absent_letter_unchanged (w g : List Char) (c : Char)
    (_hlen : g.length = w.length) (h : letterIsInWord c w = false) :
    recordGuess w g c = some g :=
  recordGuessLoop_absent w c ((letterIsInWord_eq_false_iff c w).1 h) w.length 0 g

/-- C6, at the word "dog", the reveal state "d  " and the letter 'x'. -/
theorem recordGuess_absent_letter_unchanged_witness :
    "d  ".toList.length = "dog".toList.length ∧ letterIsInWord 'x' "dog".toList = false ∧
    recordGuess "dog".toList "d  ".toList 'x' = some "d  ".toList :=
  ⟨by decide, by decide,
    recordGuess_absent_letter_unchanged "dog".toList "d  ".toList 'x' (by decide) (by decide)⟩

/-- C9, as stated, fails: the reveal state (c, blank, blank) is printed as
" c  _  _ " and a newline, not as "c _ _", and (c, a, t) as " c  a  t " and a newline,
not as "c a t". -/
theorem showStatus_not_single_spaced :
    showStatus "c  ".toList = " c  _  _ \n".toList ∧
    showStatus "c  ".toList ≠ "c _ _".toList ∧
    showStatus "c  ".toList ≠ "c _ _\n".toList ∧
    showStatus "cat".toList = " c  a  t \n".toList ∧
    showStatus "cat".toList ≠ "c a t".toList ∧
    showStatus "cat".toList ≠ "c a t\n".toList := by
  decide

/-- C9, amended: `showStatus` prints, for each character of the reveal state in order,
a space, the character (an underscore for the placeholder) and a space, and ends with
a newline; (c, blank, blank) is printed as " c  _  _ " and (c, a, t) as " c  a  t ",
each followed by a newline. -/
theorem showStatus_padded_cells (g : List Char) :
    (showStatus g).length = 3 * g.length + 1 ∧
    (∀ (i : Nat) (c : Char), g[i]? = some c →
      (showStatus g)[3 * i]? = some ' ' ∧
      (showStatus g)[3 * i + 1]? = some (if c = ' ' then '_' else c) ∧
      (showStatus g)[3 * i + 2]? = some ' ') ∧
    (showStatus g)[3 * g.length]? = some '\n' ∧
    showStatus "c  ".toList = " c  _  _ \n".toList ∧
    showStatus "cat".toList = " c  a  t \n".toList := by
  refine ⟨showStatus_length g, showStatus_getElem? g, ?_, by decide, by decide⟩
  induction g with
  | nil => rfl
  | cons c cs ih =>
    have e : 3 * (c :: cs).length = 3 * cs.length + 1 + 1 + 1 := by
      simp only [List.length_cons]; omega
    rw [e]
    simpa only [showStatus, List.getElem?_cons_succ] using ih

/-- C9 amended, at the reveal state "c t": the middle cell is an underscore. -/
theorem showStatus_padded_cells_witness :
    "c t".toList[1]? = some ' ' ∧ (showStatus "c t".toList)[3 * 1 + 1]? = some '_' :=
  ⟨by decide, ((showStatus_padded_cells "c t".toList).2.1 1 ' ' (by decide)).2.1⟩

/-- C10: the figure of `drawHangman(0)` has no body part; for `0 ≤ n ≤ 6` every
non-blank character of the figure of `drawHangman(n)` is at the same line and column
in that of `drawHangman(n+1)`, one position that was blank or absent in the former
holds a body part in the latter, and every other non-blank character of the latter is
already in the former; the figure of `drawHangman(n)` has `n` body parts for `0 ≤ n ≤ 7`, none
of them a blank. -/
theorem drawHangman_adds_one_part (n : Int) (h0 : 0 ≤ n) (h6 : n ≤ 6) :
    (∀ p ∈ figure 0, p.part = false) ∧
    (∀ p ∈ figure n, p.char ≠ ' ' → p ∈ figure (n + 1)) ∧
    (∃ p ∈ figure (n + 1), p.part = true ∧
      (∀ q ∈ figure n, q.line = p.line → q.col = p.col → q.char = ' ' ∧ q.part = false) ∧
      (∀ q ∈ figure (n + 1), q.char ≠ ' ' → q = p ∨ q ∈ figure n)) ∧
    (bodyParts n : Int) = n ∧ (bodyParts (n + 1) : Int) = n + 1 ∧
    (∀ p ∈ figure (n + 1), p.part = true → p.char ≠ ' ') := by
  interval_cases n <;> decide!

/-- C10, from the figure with two body parts to the one with three: the second 'O'
appears at line 4, column 6. -/
theorem drawHangman_adds_one_part_witness :
    ({ line := 4, col := 6, char := 'O', part := true } : Cell) ∈ figure (2 + 1) ∧
    (bodyParts 2 : Int) = 2 ∧ (bodyParts (2 + 1) : Int) = 2 + 1 ∧
    drawHangman 2 = ("-------\n|/    |\n|     O\n|     |\n|      \n|       \n|\n" ++
      "----------------------------------\n").toList ∧
    drawHangman 3 = ("-------\n|/    |\n|     O\n|     |\n|     O \n|       \n|\n" ++
      "----------------------------------\n").toList :=
  ⟨by decide, (drawHangman_adds_one_part 2 (by decide) (by decide)).2.2.2.1,
    (drawHangman_adds_one_part 2 (by decide) (by decide)).2.2.2.2.1, by decide, by decide⟩

/-! ## Lemmas on the round loop -/

theorem fillBlanks_eq (k : Nat) : ∀ g : List Char, fillBlanks k g = g ++ List.replicate k ' ' := by
  induction k with
  | zero => intro g; simp [fillBlanks]
  | succ k ih =>
    intro g
    simp only [fillBlanks, ih, List.replicate_succ, List.append_assoc, List.singleton_append]

theorem initState_guessWord (word : List Char) :
    (initState word).guessWord = List.replicate word.length ' ' := by
  simp [initState, fillBlanks_eq]

theorem roundBody_wrong (word : List Char) (s : RoundState) (letter : Char)
    (h : letter ∉ word) :
    roundBody word s letter = some { s with numWrong := s.numWrong + 1 } := by
  have := (letterIsInWord_eq_false_iff letter word).2 h
  simp [roundBody, this]

theorem roundBody_right (word : List Char) (s : RoundState) (letter : Char)
    (h : letter ∈ word) (hlen : s.guessWord.length = word.length) :
    ∃ g, recordGuess word s.guessWord letter = some g ∧ g.length = word.length ∧
      roundBody word s letter = some { guessWord := g, numWrong := s.numWrong } := by
  obtain ⟨g, hg, hl, _⟩ := recordGuess_spec word s.guessWord letter hlen
  have := (letterIsInWord_iff letter word).2 h
  exact ⟨g, hg, by omega, by simp [roundBody, this, hg]⟩

theorem loopCondition_iff (s : RoundState) :
    loopCondition s = true ↔ isWin s.guessWord = false ∧ s.numWrong < 7 := by
  simp [loopCondition, NUM_WRONG_ALLOWED]

/-- The invariant of the round: the reveal state is as long as the word, the wrong
count is between 0 and 7, and a complete reveal state comes with a count below 7. -/
theorem reachable_inv (word : List Char) (s : RoundState) (h : Reachable word s) :
    s.guessWord.length = word.length ∧ 0 ≤ s.numWrong ∧ s.numWrong ≤ 7 ∧
      (isWin s.guessWord = true → s.numWrong < 7) := by
  induction h with
  | init =>
    refine ⟨by simp [initState_guessWord], ?_, ?_, ?_⟩ <;> simp [initState]
  | step s s' letter _ hc hb ih =>
    obtain ⟨hl, h0, h7, hw⟩ := ih
    have hlt : s.numWrong < 7 ∧ (s.numWrong = 0 ∨ isWin s.guessWord = false) := by
      rcases hc with hc | hc
      · subst hc; simp [initState]
      · rw [loopCondition_iff] at hc
        exact ⟨hc.2, Or.inr hc.1⟩
    by_cases hmem : letter ∈ word
    · obtain ⟨g, _, hgl, hrb⟩ := roundBody_right word s letter hmem hl
      rw [hrb] at hb
      cases hb
      exact ⟨hgl, h0, h7, fun _ => hlt.1⟩
    · rw [roundBody_wrong word s letter hmem] at hb
      cases hb
      refine ⟨hl, by simp only; omega, by simp only; omega, fun hwin => ?_⟩
      simp only at hwin ⊢
      rcases hlt.2 with hz | hf
      · omega
      · rw [hf] at hwin; cases hwin

theorem roundLoop_finished_reachable (word : List Char) :
    ∀ (guesses : List Char) (s s' : RoundState) (rest : List Char),
      Reachable word s → (s = initState word ∨ loopCondition s = true) →
      roundLoop word s guesses = RoundResult.finished s' rest →
      Reachable word s' ∧ loopCondition s' = false := by
  intro guesses
  induction guesses with
  | nil => intro s s' rest _ _ h; simp [roundLoop] at h
  | cons letter ls ih =>
    intro s s' rest hr hc h
    simp only [roundLoop] at h
    cases hb : roundBody word s letter with
    | none => rw [hb] at h; cases h
    | some s1 =>
      rw [hb] at h
      simp only at h
      have hr1 : Reachable word s1 := Reachable.step s s1 letter hr hc hb
      by_cases hcond : loopCondition s1 = true
      · rw [if_pos hcond] at h
        exact ih s1 s' rest hr1 (Or.inr hcond) h
      · rw [if_neg hcond] at h
        cases h
        exact ⟨hr1, by simpa using hcond⟩

/-- No iteration of a round writes outside `guessWord`. -/
theorem roundLoop_defined (word : List Char) :
    ∀ (guesses : List Char) (s : RoundState),
      Reachable word s → (s = initState word ∨ loopCondition s = true) →
      roundLoop word s guesses ≠ RoundResult.undefinedBehaviour := by
  intro guesses
  induction guesses with
  | nil => intro s _ _ h; simp [roundLoop] at h
  | cons letter ls ih =>
    intro s hr hc h
    simp only [roundLoop] at h
    have hdef : ∃ s1, roundBody word s letter = some s1 := by
      by_cases hmem : letter ∈ word
      · obtain ⟨g, _, _, hrb⟩ := roundBody_right word s letter hmem (reachable_inv word s hr).1
        exact ⟨_, hrb⟩
      · exact ⟨_, roundBody_wrong word s letter hmem⟩
    obtain ⟨s1, hb⟩ := hdef
    rw [hb] at h
    simp only at h
    by_cases hcond : loopCondition s1 = true
    · rw [if_pos hcond] at h
      exact ih s1 (Reachable.step s s1 letter hr hc hb) (Or.inr hcond) h
    · rw [if_neg hcond] at h
      cases h

theorem roundLoop_append (word : List Char) :
    ∀ (p q : List Char) (s : RoundState),
      roundLoop word s (p ++ q) =
        match roundLoop word s p with
        | RoundResult.awaitingInput s' => roundLoop word s' q
        | RoundResult.finished s' r => RoundResult.finished s' (r ++ q)
        | RoundResult.undefinedBehaviour => RoundResult.undefinedBehaviour := by
  intro p
  induction p with
  | nil => intro q s; simp [roundLoop]
  | cons letter ls ih =>
    intro q s
    simp only [List.cons_append, roundLoop]
    cases roundBody word s letter with
    | none => rfl
    | some s1 =>
      simp only
      by_cases hcond : loopCondition s1 = true
      · rw [if_pos hcond, if_pos hcond]; exact ih q s1
      · rw [if_neg hcond, if_neg hcond]; rfl

theorem revealed_length (word seen : List Char) : (revealed word seen).length = word.length := by
  simp [revealed]

theorem revealed_nil (word : List Char) : revealed word [] = List.replicate word.length ' ' := by
  simp [revealed, List.map_const']

theorem revealed_all (word seen : List Char) (h : ∀ x ∈ word, x ∈ seen) :
    revealed word seen = word := by
  induction word with
  | nil => rfl
  | cons c cs ih =>
    have hc : c ∈ seen := h c (List.mem_cons_self c cs)
    have := ih (fun x hx => h x (List.mem_cons_of_mem c hx))
    simp only [revealed, List.map_cons, hc, if_true] at this ⊢
    rw [this]

theorem isWin_revealed (word seen : List Char) (hsp : ' ' ∉ word) :
    isWin (revealed word seen) = true ↔ ∀ x ∈ word, x ∈ seen := by
  rw [isWin_iff]
  simp only [revealed, List.mem_map, forall_exists_index, and_imp, forall_apply_eq_imp_iff₂]
  constructor
  · intro h x hx
    by_contra hns
    exact h x hx (by simp [hns])
  · intro h x hx
    simp only [h x hx, if_true]
    intro e
    exact hsp (e ▸ hx)

theorem recordGuess_revealed (word seen : List Char) (c : Char) :
    recordGuess word (revealed word seen) c = some (revealed word (seen ++ [c])) := by
  obtain ⟨g, hg, _, hj⟩ := recordGuess_spec word (revealed word seen) c (revealed_length word seen)
  rw [hg]
  congr 1
  apply List.ext_getElem?
  intro j
  rw [hj j]
  simp only [revealed, List.getElem?_map]
  cases hw : word[j]? with
  | none => simp
  | some x =>
    by_cases hx : x = c
    · subst hx; simp
    · simp [hx]

theorem roundBody_revealed (word seen : List Char) (n : Int) (c : Char) (h : c ∈ word) :
    roundBody word { guessWord := revealed word seen, numWrong := n } c =
      some { guessWord := revealed word (seen ++ [c]), numWrong := n } := by
  have := (letterIsInWord_iff c word).2 h
  simp [roundBody, this, recordGuess_revealed]

theorem roundLoop_correct_awaiting (word : List Char) (hsp : ' ' ∉ word) (n : Int)
    (hn : n < 7) :
    ∀ (gs seen : List Char), (∀ c ∈ gs, c ∈ word) →
      (∀ k : Nat, 1 ≤ k → k ≤ gs.length → ∃ x ∈ word, x ∉ seen ++ gs.take k) →
      roundLoop word { guessWord := revealed word seen, numWrong := n } gs =
        RoundResult.awaitingInput { guessWord := revealed word (seen ++ gs), numWrong := n } := by
  intro gs
  induction gs with
  | nil => intro seen _ _; simp [roundLoop]
  | cons c rest ih =>
    intro seen hin hk
    have hc : c ∈ word := hin c (List.mem_cons_self c rest)
    have hcond : loopCondition { guessWord := revealed word (seen ++ [c]), numWrong := n } = true := by
      rw [loopCondition_iff]
      refine ⟨?_, hn⟩
      obtain ⟨x, hx, hxs⟩ := hk 1 (le_refl 1) (by simp)
      have hnot : ¬ (isWin (revealed word (seen ++ [c])) = true) := by
        rw [isWin_revealed word _ hsp]
        intro hall
        exact hxs (by simpa using hall x hx)
      simpa using hnot
    simp only [roundLoop, roundBody_revealed word seen n c hc, hcond, if_true]
    have := ih (seen ++ [c]) (fun d hd => hin d (List.mem_cons_of_mem c hd)) (by
      intro k hk1 hk2
      obtain ⟨x, hx, hxs⟩ := hk (k + 1) (by omega) (by simp only [List.length_cons]; omega)
      exact ⟨x, hx, by simpa using hxs⟩)
    simpa using this

theorem roundLoop_wrong (word g : List Char) (hg : isWin g = false) :
    ∀ (gs : List Char) (n : Nat), (∀ c ∈ gs, c ∉ word) →
      (n + gs.length < 7 →
        roundLoop word { guessWord := g, numWrong := (n : Int) } gs =
          RoundResult.awaitingInput { guessWord := g, numWrong := ((n + gs.length : Nat) : Int) }) ∧
      (n < 7 → 7 ≤ n + gs.length →
        roundLoop word { guessWord := g, numWrong := (n : Int) } gs =
          RoundResult.finished { guessWord := g, numWrong := 7 } (gs.drop (7 - n))) := by
  intro gs
  induction gs with
  | nil =>
    intro n _
    refine ⟨fun _ => by simp [roundLoop], fun h1 h2 => ?_⟩
    simp only [List.length_nil] at h2
    omega
  | cons c rest ih =>
    intro n hw
    have hc : c ∉ word := hw c (List.mem_cons_self c rest)
    have hrest : ∀ d ∈ rest, d ∉ word := fun d hd => hw d (List.mem_cons_of_mem c hd)
    obtain ⟨ih1, ih2⟩ := ih (n + 1) hrest
    have hcast : ((n : Int) + 1) = ((n + 1 : Nat) : Int) := by push_cast; rfl
    simp only [List.length_cons]
    constructor
    · intro hlt
      have hcond : loopCondition { guessWord := g, numWrong := ((n + 1 : Nat) : Int) } = true := by
        rw [loopCondition_iff]; exact ⟨hg, by simp only; omega⟩
      simp only [roundLoop, roundBody_wrong word _ c hc, hcast, hcond, if_true]
      rw [ih1 (by omega)]
      congr 3
      omega
    · intro hn h7
      by_cases hlast : n + 1 = 7
      · have hcond : loopCondition { guessWord := g, numWrong := ((n + 1 : Nat) : Int) } = false := by
          rw [← Bool.not_eq_true, loopCondition_iff]
          intro h
          have := h.2
          simp only at this
          omega
        have h1 : 7 - n = 1 := by omega
        simp only [roundLoop, roundBody_wrong word _ c hc, hcast, hcond, h1, List.drop_succ_cons,
          List.drop_zero]
        simp [hlast]
      · have hcond : loopCondition { guessWord := g, numWrong := ((n + 1 : Nat) : Int) } = true := by
          rw [loopCondition_iff]; exact ⟨hg, by simp only; omega⟩
        simp only [roundLoop, roundBody_wrong word _ c hc, hcast, hcond, if_true]
        rw [ih2 (by omega) (by omega)]
        have h1 : 7 - n = (7 - (n + 1)) + 1 := by omega
        rw [h1, List.drop_succ_cons]

theorem isWin_replicate_blank (k : Nat) (hk : 0 < k) : isWin (List.replicate k ' ') = false := by
  cases k with
  | zero => omega
  | succ k => simp [List.replicate_succ, isWin]

theorem revealWord_length (word : List Char) : (revealWord word).length = 3 * word.length := by
  induction word with
  | nil => rfl
  | cons c cs ih => simp only [revealWord, List.length_cons, ih]; omega

theorem revealWord_getElem? (word : List Char) :
    ∀ (i : Nat) (c : Char), word[i]? = some c →
      (revealWord word)[3 * i]? = some ' ' ∧
      (revealWord word)[3 * i + 1]? = some c ∧
      (revealWord word)[3 * i + 2]? = some ' ' := by
  induction word with
  | nil => intro i c h; simp at h
  | cons d ds ih =>
    intro i c h
    cases i with
    | zero =>
      simp only [List.getElem?_cons_zero, Option.some.injEq] at h
      subst h
      simp [revealWord]
    | succ i =>
      simp only [List.getElem?_cons_succ] at h
      have e0 : 3 * (i + 1) = 3 * i + 1 + 1 + 1 := by omega
      have e1 : 3 * (i + 1) + 1 = 3 * i + 1 + 1 + 1 + 1 := by omega
      have e2 : 3 * (i + 1) + 2 = 3 * i + 2 + 1 + 1 + 1 := by omega
      obtain ⟨h0, h1, h2⟩ := ih i c h
      refine ⟨?_, ?_, ?_⟩
      · rw [e0]; simpa only [revealWord, List.getElem?_cons_succ] using h0
      · rw [e1]; simpa only [revealWord, List.getElem?_cons_succ] using h1
      · rw [e2]; simpa only [revealWord, List.getElem?_cons_succ] using h2

theorem nodup_getElem_not_mem_take (l : List Char) (hnd : l.Nodup) (k : Nat)
    (hk : k < l.length) : l[k] ∉ l.take k := by
  have hsplit : l.take k ++ l.drop k = l := List.take_append_drop k l
  rw [← hsplit, List.nodup_append] at hnd
  intro hmem
  exact hnd.2.2 hmem (by rw [List.drop_eq_getElem_cons hk]; exact List.mem_cons_self _ _)

/-! ## Claims on the round -/

/-- C3: when the round loop exits, either the reveal state is complete, the wrong count
is below 7 and the win text is reported, or the reveal state is incomplete, the wrong
count is 7 and the loss text (the revealed word and the loss banner) is reported. -/
theorem round_exit_win_or_loss (word guesses : List Char) (s : RoundState) (rest : List Char)
    (h : playRound word guesses = RoundResult.finished s rest) :
    (isWin s.guessWord = true ∧ s.numWrong < NUM_WRONG_ALLOWED ∧
        roundReport word s = winBanner) ∨
    (isWin s.guessWord = false ∧ s.numWrong = NUM_WRONG_ALLOWED ∧
        roundReport word s = revealWord word ++ lossBanner) := by
  obtain ⟨hr, hc⟩ := roundLoop_finished_reachable word guesses (initState word) s rest
    Reachable.init (Or.inl rfl) h
  obtain ⟨_, _, h7, hw⟩ := reachable_inv word s hr
  cases hwin : isWin s.guessWord with
  | true =>
    left
    exact ⟨rfl, hw hwin, by simp [roundReport, hwin]⟩
  | false =>
    right
    have hnot : ¬ (loopCondition s = true) := by simp [hc]
    rw [loopCondition_iff] at hnot
    have hge : ¬ (s.numWrong < 7) := fun hlt => hnot ⟨hwin, hlt⟩
    refine ⟨rfl, ?_, by simp [roundReport, hwin]⟩
    simp only [NUM_WRONG_ALLOWED]
    omega

/-- C3, on the word "cat": the guesses c, a, t end the round as a win, and the guesses
x, c, y, z, q, w, v, u end it as a loss with wrong count 7. -/
theorem round_exit_win_or_loss_witness :
    playRound "cat".toList "cat".toList =
      RoundResult.finished { guessWord := "cat".toList, numWrong := 0 } [] ∧
    playRound "cat".toList "xcyzqwvu".toList =
      RoundResult.finished { guessWord := "c  ".toList, numWrong := 7 } [] ∧
    ((isWin "cat".toList = true ∧ (0 : Int) < NUM_WRONG_ALLOWED ∧
        roundReport "cat".toList { guessWord := "cat".toList, numWrong := 0 } = winBanner) ∨
      (isWin "cat".toList = false ∧ (0 : Int) = NUM_WRONG_ALLOWED ∧
        roundReport "cat".toList { guessWord := "cat".toList, numWrong := 0 } =
          revealWord "cat".toList ++ lossBanner)) :=
  ⟨by decide, by decide,
    round_exit_win_or_loss "cat".toList "cat".toList
      { guessWord := "cat".toList, numWrong := 0 } [] (by decide)⟩

/-- C4: the wrong count is 0 at round start; in every state reachable within a round it
is between 0 and 7; and a guess step taken from such a state is defined and adds 1 to
the wrong count when the letter does not occur in the secret word and 0 when it does. -/
theorem numWrong_bounded_and_stepwise (word : List Char) (s : RoundState)
    (h : Reachable word s) :
    (initState word).numWrong = 0 ∧
    0 ≤ s.numWrong ∧ s.numWrong ≤ NUM_WRONG_ALLOWED ∧
    ∀ letter : Char, (s = initState word ∨ loopCondition s = true) →
      ∃ s', roundBody word s letter = some s' ∧ Reachable word s' ∧
        s'.numWrong = s.numWrong + (if letter ∈ word then 0 else 1) := by
  obtain ⟨hl, h0, h7, _⟩ := reachable_inv word s h
  refine ⟨rfl, h0, h7, fun letter hc => ?_⟩
  by_cases hmem : letter ∈ word
  · obtain ⟨g, _, _, hrb⟩ := roundBody_right word s letter hmem hl
    exact ⟨_, hrb, Reachable.step s _ letter h hc hrb, by simp [hmem]⟩
  · have hrb := roundBody_wrong word s letter hmem
    exact ⟨_, hrb, Reachable.step s _ letter h hc hrb, by simp [hmem]⟩

/-- C4, on the word "cat" after the guess x: the wrong count is 1, and the guess y
makes it 2 while the guess c leaves it at 1. -/
theorem numWrong_bounded_and_stepwise_witness :
    Reachable "cat".toList { guessWord := "   ".toList, numWrong := 1 } ∧
    (0 : Int) ≤ 1 ∧ (1 : Int) ≤ NUM_WRONG_ALLOWED ∧
    roundBody "cat".toList { guessWord := "   ".toList, numWrong := 1 } 'y' =
      some { guessWord := "   ".toList, numWrong := 2 } ∧
    roundBody "cat".toList { guessWord := "   ".toList, numWrong := 1 } 'c' =
      some { guessWord := "c  ".toList, numWrong := 1 } :=
  ⟨Reachable.step (initState "cat".toList) _ 'x' Reachable.init (Or.inl rfl) (by decide),
    (numWrong_bounded_and_stepwise "cat".toList { guessWord := "   ".toList, numWrong := 1 }
      (Reachable.step (initState "cat".toList) _ 'x' Reachable.init (Or.inl rfl)
        (by decide))).2.1,
    (numWrong_bounded_and_stepwise "cat".toList { guessWord := "   ".toList, numWrong := 1 }
      (Reachable.step (initState "cat".toList) _ 'x' Reachable.init (Or.inl rfl)
        (by decide))).2.2.1,
    by decide, by decide⟩

/-- C5: the reveal state built at round start is all placeholders and as long as the
secret word; in every state reachable within a round the reveal state is as long as
the secret word, and a guess step from such a state keeps that length. -/
theorem guessWord_length_invariant (word : List Char) (s : RoundState)
    (h : Reachable word s) :
    (initState word).guessWord = List.replicate word.length ' ' ∧
    (initState word).guessWord.length = word.length ∧
    s.guessWord.length = word.length ∧
    ∀ (letter : Char) (s' : RoundState), roundBody word s letter = some s' →
      s'.guessWord.length = word.length := by
  obtain ⟨hl, _, _, _⟩ := reachable_inv word s h
  refine ⟨initState_guessWord word, by simp [initState_guessWord], hl, fun letter s' hb => ?_⟩
  by_cases hmem : letter ∈ word
  · obtain ⟨g, _, hgl, hrb⟩ := roundBody_right word s letter hmem hl
    rw [hrb] at hb
    cases hb
    exact hgl
  · rw [roundBody_wrong word s letter hmem] at hb
    cases hb
    exact hl

/-- C5, on the word "cat" after the guess a: the reveal state " a " has length 3. -/
theorem guessWord_length_invariant_witness :
    Reachable "cat".toList { guessWord := " a ".toList, numWrong := 0 } ∧
    " a ".toList.length = "cat".toList.length ∧
    roundBody "cat".toList { guessWord := " a ".toList, numWrong := 0 } 't' =
      some { guessWord := " at".toList, numWrong := 0 } ∧
    " at".toList.length = "cat".toList.length :=
  ⟨Reachable.step (initState "cat".toList) _ 'a' Reachable.init (Or.inl rfl) (by decide),
    (guessWord_length_invariant "cat".toList { guessWord := " a ".toList, numWrong := 0 }
      (Reachable.step (initState "cat".toList) _ 'a' Reachable.init (Or.inl rfl)
        (by decide))).2.2.1,
    by decide,
    (guessWord_length_invariant "cat".toList { guessWord := " a ".toList, numWrong := 0 }
      (Reachable.step (initState "cat".toList) _ 'a' Reachable.init (Or.inl rfl)
        (by decide))).2.2.2 't' { guessWord := " at".toList, numWrong := 0 } (by decide)⟩

/-- C7: for a non-empty secret word of lowercase letters and guesses that are the
distinct letters of the word, each once, in any order: before the last guess the loop
is still running with an incomplete reveal state and wrong count 0, and with the last
guess the round ends with the whole word revealed, wrong count 0 and the win text. -/
theorem guessing_each_letter_once_wins (word guesses : List Char) (hne : word ≠ [])
    (hlow : ∀ c ∈ word, 'a' ≤ c ∧ c ≤ 'z') (hnd : guesses.Nodup)
    (hmem : ∀ c : Char, c ∈ guesses ↔ c ∈ word) :
    (∀ k : Nat, k < guesses.length →
      ∃ s, playRound word (guesses.take k) = RoundResult.awaitingInput s ∧
        isWin s.guessWord = false ∧ s.numWrong = 0) ∧
    (∃ s, playRound word guesses = RoundResult.finished s [] ∧
      isWin s.guessWord = true ∧ s.guessWord = word ∧ s.numWrong = 0 ∧
      roundReport word s = winBanner) := by
  have hsp : ' ' ∉ word := fun hin => absurd (hlow ' ' hin).1 (by decide)
  have hinit : initState word = { guessWord := revealed word [], numWrong := 0 } := by
    simp [initState, revealed_nil, fillBlanks_eq]
  have hwin : isWin word = true := by
    rw [isWin_iff]
    intro c hc e
    exact hsp (e ▸ hc)
  constructor
  · intro k hk
    have hx : guesses[k] ∈ word := (hmem _).1 (List.getElem_mem hk)
    have hnot : guesses[k] ∉ guesses.take k := nodup_getElem_not_mem_take guesses hnd k hk
    have hrun := roundLoop_correct_awaiting word hsp 0 (by decide) (guesses.take k) []
      (fun c hc => (hmem c).1 (List.mem_of_mem_take hc))
      (fun j _ _ => ⟨guesses[k], hx, fun hin => hnot (by
        simp only [List.nil_append] at hin
        exact List.mem_of_mem_take hin)⟩)
    refine ⟨_, by rw [playRound, hinit]; exact hrun, ?_, rfl⟩
    have hn : ¬ (isWin (revealed word ([] ++ guesses.take k)) = true) := by
      rw [isWin_revealed word _ hsp]
      intro hall
      exact hnot (by simpa using hall _ hx)
    simpa using hn
  · have hgne : guesses ≠ [] := by
      cases word with
      | nil => exact absurd rfl hne
      | cons c cs =>
        intro e
        have := (hmem c).2 (List.mem_cons_self c cs)
        rw [e] at this
        cases this
    have hsplit : guesses.dropLast ++ [guesses.getLast hgne] = guesses :=
      List.dropLast_append_getLast hgne
    have hnd2 := hnd
    rw [← hsplit, List.nodup_append] at hnd2
    have hlast : guesses.getLast hgne ∈ word := (hmem _).1 (List.getLast_mem hgne)
    have hnot : guesses.getLast hgne ∉ guesses.dropLast :=
      fun hin => hnd2.2.2 hin (List.mem_singleton_self _)
    have hrun := roundLoop_correct_awaiting word hsp 0 (by decide) guesses.dropLast []
      (fun c hc => (hmem c).1 (List.mem_of_mem_dropLast hc))
      (fun j _ _ => ⟨guesses.getLast hgne, hlast, fun hin => hnot (by
        simp only [List.nil_append] at hin
        exact List.mem_of_mem_take hin)⟩)
    have hall : revealed word (([] ++ guesses.dropLast) ++ [guesses.getLast hgne]) = word := by
      apply revealed_all
      intro x hx
      rw [List.nil_append, hsplit]
      exact (hmem x).2 hx
    have hfin : playRound word guesses =
        RoundResult.finished { guessWord := word, numWrong := 0 } [] := by
      rw [playRound, hinit]
      conv_lhs => rw [← hsplit]
      rw [roundLoop_append, hrun]
      simp only [roundLoop, roundBody_revealed word _ 0 _ hlast, hall]
      simp [loopCondition, hwin]
    exact ⟨_, hfin, hwin, rfl, rfl, by simp [roundReport, hwin]⟩

/-- C7, on the word "cat" with the guesses c, a, t: the reveal state is "c  " after the
first guess and "ca " after the second, both incomplete, and the third guess ends the
round as a win with wrong count 0. -/
theorem guessing_each_letter_once_wins_witness :
    playRound "cat".toList "c".toList =
      RoundResult.awaitingInput { guessWord := "c  ".toList, numWrong := 0 } ∧
    playRound "cat".toList "ca".toList =
      RoundResult.awaitingInput { guessWord := "ca ".toList, numWrong := 0 } ∧
    isWin "ca ".toList = false ∧
    (∃ s, playRound "cat".toList "cat".toList = RoundResult.finished s [] ∧
      isWin s.guessWord = true ∧ s.guessWord = "cat".toList ∧ s.numWrong = 0 ∧
      roundReport "cat".toList s = winBanner) :=
  ⟨by decide, by decide, by decide,
    (guessing_each_letter_once_wins "cat".toList "cat".toList (by decide) (by decide)
      (by decide) (fun _ => Iff.rfl)).2⟩

/-- C8: for a non-empty secret word and at least seven guesses none of which occurs in
the word: after fewer than seven guesses the loop is still running, the seventh guess
ends the round with wrong count 7 and the reveal state all placeholders, no further
guess is consumed, and the loss text is reported: every letter of the word in order,
each between two spaces, followed by the loss banner. -/
theorem seven_wrong_guesses_lose (word guesses : List Char) (hne : word ≠ [])
    (hwrong : ∀ c ∈ guesses, c ∉ word) (hlen : 7 ≤ guesses.length) :
    (∀ k : Nat, k < 7 → playRound word (guesses.take k) =
      RoundResult.awaitingInput
        { guessWord := List.replicate word.length ' ', numWrong := (k : Int) }) ∧
    playRound word guesses =
      RoundResult.finished { guessWord := List.replicate word.length ' ', numWrong := 7 }
        (guesses.drop 7) ∧
    isWin (List.replicate word.length ' ') = false ∧
    roundReport word { guessWord := List.replicate word.length ' ', numWrong := 7 } =
      revealWord word ++ lossBanner ∧
    (revealWord word).length = 3 * word.length ∧
    (∀ (i : Nat) (c : Char), word[i]? = some c →
      (revealWord word)[3 * i]? = some ' ' ∧
      (revealWord word)[3 * i + 1]? = some c ∧
      (revealWord word)[3 * i + 2]? = some ' ') := by
  have hpos : 0 < word.length := List.length_pos.2 hne
  have hblank := isWin_replicate_blank word.length hpos
  have hinit : initState word =
      { guessWord := List.replicate word.length ' ', numWrong := ((0 : Nat) : Int) } := by
    simp [initState, fillBlanks_eq]
  refine ⟨fun k hk => ?_, ?_, hblank, by simp [roundReport, hblank], revealWord_length word,
    revealWord_getElem? word⟩
  · have hk2 : (guesses.take k).length = k := by
      rw [List.length_take]; omega
    have := (roundLoop_wrong word _ hblank (guesses.take k) 0
      (fun c hc => hwrong c (List.mem_of_mem_take hc))).1 (by omega)
    rw [playRound, hinit, this, hk2, Nat.zero_add]
  · have := (roundLoop_wrong word _ hblank guesses 0 hwrong).2 (by decide) (by omega)
    rw [playRound, hinit, this]

/-- C8, on the word "dog" with the guesses x, y, z, q, w, v, u: the round ends with the
seventh guess, wrong count 7, and the loss text starts with " d  o  g ". -/
theorem seven_wrong_guesses_lose_witness :
    playRound "dog".toList "xyzqwvu".toList =
      RoundResult.finished { guessWord := "   ".toList, numWrong := 7 } [] ∧
    playRound "dog".toList "xyzqwv".toList =
      RoundResult.awaitingInput { guessWord := "   ".toList, numWrong := 6 } ∧
    roundReport "dog".toList { guessWord := "   ".toList, numWrong := 7 } =
      (" d  o  g \n--------------------------\nGame over. You lost.\n" ++
        "--------------------------\n").toList ∧
    roundReport "dog".toList
        { guessWord := List.replicate "dog".toList.length ' ', numWrong := 7 } =
      revealWord "dog".toList ++ lossBanner :=
  ⟨by decide, by decide, by decide,
    (seven_wrong_guesses_lose "dog".toList "xyzqwvu".toList (by decide) (by decide)
      (by decide)).2.2.2.1⟩

/-! ## Lemmas on `getGuess` -/

theorem isspace_not_isalpha (c : Char) (h : isspace c = true) : isalpha c = false := by
  simp only [isspace, Bool.or_eq_true, decide_eq_true_eq] at h
  rcases h with ((((h | h) | h) | h) | h) | h <;> subst h <;> decide

theorem char_le_iff (a b : Char) : a ≤ b ↔ a.toNat ≤ b.toNat := by
  rw [Char.le_def]
  exact Iff.rfl

theorem tolower_upper (l : Char) (h : 'A' ≤ l ∧ l ≤ 'Z') :
    'a' ≤ tolower l ∧ tolower l ≤ 'z' ∧ (tolower l).toNat = l.toNat + 32 := by
  have h1 : 65 ≤ l.toNat := (char_le_iff 'A' l).1 h.1
  have h2 : l.toNat ≤ 90 := (char_le_iff l 'Z').1 h.2
  have e : l = Char.ofNat l.toNat := (Char.ofNat_toNat l).symm
  generalize l.toNat = n at h1 h2 e
  subst e
  interval_cases n <;> decide

theorem tolower_of_isalpha (l : Char) (h : isalpha l = true) :
    'a' ≤ tolower l ∧ tolower l ≤ 'z' ∧
    ('A' ≤ l ∧ l ≤ 'Z' → (tolower l).toNat = l.toNat + 32) ∧
    ('a' ≤ l ∧ l ≤ 'z' → tolower l = l) := by
  by_cases hu : 'A' ≤ l ∧ l ≤ 'Z'
  · obtain ⟨h1, h2, h3⟩ := tolower_upper l hu
    refine ⟨h1, h2, fun _ => h3, fun hl => ?_⟩
    exfalso
    have a1 := (char_le_iff l 'Z').1 hu.2
    have a2 := (char_le_iff 'a' l).1 hl.1
    have b1 : 'Z'.toNat = 90 := rfl
    have b2 : 'a'.toNat = 97 := rfl
    omega
  · have hl : 'a' ≤ l ∧ l ≤ 'z' := by
      simp only [isalpha, Bool.or_eq_true, Bool.and_eq_true, decide_eq_true_eq] at h
      rcases h with h | h
      · exact absurd h hu
      · exact h
    have e : tolower l = l := by simp [tolower, hu]
    rw [e]
    exact ⟨hl.1, hl.2, fun h => absurd h hu, fun _ => rfl⟩

theorem getGuessLoop_skip (fuel : Nat) (x : Char) (t : List Char) (hx : isspace x = true) :
    getGuessLoop (fuel + 1) (x :: t) = getGuessLoop (fuel + 1) t := by
  simp only [getGuessLoop, extractChar, hx, if_true]

theorem getGuessLoop_reject (fuel : Nat) (x : Char) (t : List Char) (hs : isspace x = false)
    (ha : isalpha x = false) :
    getGuessLoop (fuel + 1) (x :: t) =
      (getGuessLoop fuel t).map (fun r => (r.1, r.2.1, promptText ++ invalidText ++ r.2.2)) := by
  simp [getGuessLoop, extractChar, hs, ha]

theorem getGuessLoop_accept (fuel : Nat) (l : Char) (t : List Char) (ha : isalpha l = true) :
    getGuessLoop (fuel + 1) (l :: t) = some (tolower l, t, promptText) := by
  have hs : isspace l = false := by
    cases h : isspace l with
    | false => rfl
    | true => rw [isspace_not_isalpha l h] at ha; cases ha
  simp [getGuessLoop, extractChar, hs, ha]

/-- With enough fuel, `getGuessLoop` returns the first letter of the input in lower
case, leaves what follows that letter, and prints one rejection for each character
before it that is not whitespace. -/
theorem getGuessLoop_first_letter (l : Char) (rest : List Char) (ha : isalpha l = true) :
    ∀ (pre : List Char) (fuel : Nat), (∀ x ∈ pre, isalpha x = false) →
      (pre ++ l :: rest).length ≤ fuel →
      getGuessLoop fuel (pre ++ l :: rest) =
        some (tolower l, rest,
          reprompts (pre.filter (fun x => !isspace x)).length ++ promptText) := by
  intro pre
  induction pre with
  | nil =>
    intro fuel _ hf
    cases fuel with
    | zero => simp at hf
    | succ f => simp [getGuessLoop_accept f l rest ha, reprompts]
  | cons x pre ih =>
    intro fuel hpre hf
    have hx : isalpha x = false := hpre x (List.mem_cons_self x pre)
    have hpre2 : ∀ y ∈ pre, isalpha y = false := fun y hy => hpre y (List.mem_cons_of_mem x hy)
    cases fuel with
    | zero => simp at hf
    | succ f =>
      simp only [List.cons_append, List.length_cons] at hf ⊢
      cases hs : isspace x with
      | true =>
        rw [getGuessLoop_skip f x _ hs, ih (f + 1) hpre2 (by omega)]
        simp [hs]
      | false =>
        rw [getGuessLoop_reject f x _ hs hx, ih f hpre2 (by omega)]
        simp [hs, reprompts, List.append_assoc]

theorem getGuessLoop_no_letter :
    ∀ (input : List Char) (fuel : Nat), (∀ x ∈ input, isalpha x = false) →
      getGuessLoop fuel input = none := by
  intro input
  induction input with
  | nil =>
    intro fuel _
    cases fuel with
    | zero => rfl
    | succ f => simp [getGuessLoop, extractChar]
  | cons x t ih =>
    intro fuel h
    have hx : isalpha x = false := h x (List.mem_cons_self x t)
    have ht : ∀ y ∈ t, isalpha y = false := fun y hy => h y (List.mem_cons_of_mem x hy)
    cases fuel with
    | zero => rfl
    | succ f =>
      cases hs : isspace x with
      | true => rw [getGuessLoop_skip f x _ hs]; exact ih (f + 1) ht
      | false => rw [getGuessLoop_reject f x _ hs hx, ih f ht]; rfl

theorem exists_first_letter :
    ∀ input : List Char, (∀ x ∈ input, isalpha x = false) ∨
      ∃ (pre : List Char) (l : Char) (rest : List Char), input = pre ++ l :: rest ∧
        (∀ x ∈ pre, isalpha x = false) ∧ isalpha l = true := by
  intro input
  induction input with
  | nil => left; intro x hx; cases hx
  | cons c t ih =>
    cases hc : isalpha c with
    | true => right; exact ⟨[], c, t, rfl, by simp, hc⟩
    | false =>
      rcases ih with h | ⟨pre, l, rest, he, hp, hl⟩
      · left
        intro x hx
        rcases List.mem_cons.1 hx with e | hm
        · rw [e]; exact hc
        · exact h x hm
      · right
        refine ⟨c :: pre, l, rest, by rw [he]; rfl, fun x hx => ?_, hl⟩
        rcases List.mem_cons.1 hx with e | hm
        · rw [e]; exact hc
        · exact hp x hm

theorem getGuess_first_letter (pre : List Char) (l : Char) (rest : List Char)
    (hpre : ∀ x ∈ pre, isalpha x = false) (ha : isalpha l = true) :
    getGuess (pre ++ l :: rest) =
      some (tolower l, rest,
        reprompts (pre.filter (fun x => !isspace x)).length ++ promptText) :=
  getGuessLoop_first_letter l rest ha pre _ hpre (le_refl _)

theorem getGuess_some (input : List Char) (c : Char) (rest out : List Char)
    (h : getGuess input = some (c, rest, out)) :
    ∃ (pre : List Char) (l : Char), input = pre ++ l :: rest ∧
      (∀ x ∈ pre, isalpha x = false) ∧ isalpha l = true ∧ c = tolower l ∧
      out = reprompts (pre.filter (fun x => !isspace x)).length ++ promptText := by
  rcases exists_first_letter input with hno | ⟨pre, l, rest2, he, hp, hl⟩
  · rw [getGuess, getGuessLoop_no_letter input _ hno] at h
    cases h
  · subst he
    rw [getGuess_first_letter pre l rest2 hp hl] at h
    simp only [Option.some.injEq, Prod.mk.injEq] at h
    obtain ⟨h1, h2, h3⟩ := h
    subst h2
    exact ⟨pre, l, rfl, hp, hl, h1.symm, h3.symm⟩

theorem getGuess_none (input : List Char) (h : getGuess input = none) :
    ∀ x ∈ input, isalpha x = false := by
  rcases exists_first_letter input with hno | ⟨pre, l, rest2, he, hp, hl⟩
  · exact hno
  · subst he
    rw [getGuess_first_letter pre l rest2 hp hl] at h
    cases h

theorem lettersOf_of_getGuess_some (input : List Char) (c : Char) (rest out : List Char)
    (h : getGuess input = some (c, rest, out)) :
    lettersOf input = c :: lettersOf rest ∧ rest.length < input.length := by
  obtain ⟨pre, l, he, hp, hl, hc, _⟩ := getGuess_some input c rest out h
  subst he
  have hnil : pre.filter isalpha = [] := by
    rw [List.filter_eq_nil_iff]
    intro x hx
    simp [hp x hx]
  refine ⟨?_, by simp only [List.length_append, List.length_cons]; omega⟩
  simp [lettersOf, List.filter_append, hnil, List.filter_cons, hl, hc]

theorem lettersOf_of_getGuess_none (input : List Char) (h : getGuess input = none) :
    lettersOf input = [] := by
  have hno := getGuess_none input h
  have hnil : input.filter isalpha = [] := by
    rw [List.filter_eq_nil_iff]
    intro x hx
    simp [hno x hx]
  simp [lettersOf, hnil]

/-- The round on a standard input is the round on the letters of that input. -/
theorem roundLoopStdin_eq (word : List Char) :
    ∀ (fuel : Nat) (s : RoundState) (input : List Char), input.length ≤ fuel →
      (roundLoopStdin word fuel s input).mapRest lettersOf =
        roundLoop word s (lettersOf input) := by
  intro fuel
  induction fuel with
  | zero =>
    intro s input hf
    have : input = [] := List.length_eq_zero.1 (by omega)
    subst this
    rfl
  | succ f ih =>
    intro s input hf
    simp only [roundLoopStdin]
    cases hg : getGuess input with
    | none =>
      rw [lettersOf_of_getGuess_none input hg]
      rfl
    | some r =>
      obtain ⟨c, rest, out⟩ := r
      obtain ⟨hl, hlen⟩ := lettersOf_of_getGuess_some input c rest out hg
      rw [hl]
      simp only [roundLoop]
      cases roundBody word s c with
      | none => rfl
      | some s1 =>
        simp only
        by_cases hcond : loopCondition s1 = true
        · rw [if_pos hcond, if_pos hcond]
          exact ih s1 rest (by omega)
        · rw [if_neg hcond, if_neg hcond]
          rfl

/-! ## Lemmas on the history of a round -/

theorem reachableAfter_reachable (word gs : List Char) (s : RoundState)
    (h : ReachableAfter word gs s) : Reachable word s := by
  induction h with
  | init => exact Reachable.init
  | step gs s s' letter _ hc hb ih => exact Reachable.step s s' letter ih hc hb

theorem revealed_append_absent (word gs : List Char) (c : Char) (hc : c ∉ word) :
    revealed word (gs ++ [c]) = revealed word gs := by
  unfold revealed
  apply List.map_congr_left
  intro x hx
  have hne : ¬ x = c := fun e => hc (e ▸ hx)
  simp [hne]

theorem reachableAfter_guessWord (word gs : List Char) (s : RoundState)
    (h : ReachableAfter word gs s) : s.guessWord = revealed word gs := by
  induction h with
  | init => rw [initState_guessWord, revealed_nil]
  | step gs s s' letter _ _ hb ih =>
    by_cases hmem : letter ∈ word
    · have hs : s = { guessWord := revealed word gs, numWrong := s.numWrong } := by
        cases s; simp only at ih; rw [ih]
      rw [hs, roundBody_revealed word gs s.numWrong letter hmem] at hb
      cases hb
      rfl
    · rw [roundBody_wrong word s letter hmem] at hb
      cases hb
      rw [revealed_append_absent word gs letter hmem]
      exact ih

theorem roundBody_numWrong (word : List Char) (s s' : RoundState) (letter : Char)
    (h : roundBody word s letter = some s') :
    s'.numWrong = s.numWrong + (if letter ∈ word then 0 else 1) := by
  by_cases hmem : letter ∈ word
  · have hin := (letterIsInWord_iff letter word).2 hmem
    simp only [roundBody, hin, if_true, Option.map_eq_some'] at h
    obtain ⟨g, _, hg⟩ := h
    subst hg
    simp [hmem]
  · rw [roundBody_wrong word s letter hmem] at h
    cases h
    simp [hmem]

theorem roundLoop_reachableAfter (word : List Char) :
    ∀ (guesses gs : List Char) (s : RoundState), ReachableAfter word gs s →
      (s = initState word ∨ loopCondition s = true) →
      (∀ (s' : RoundState) (rest : List Char),
        roundLoop word s guesses = RoundResult.finished s' rest →
        ∃ used, guesses = used ++ rest ∧ ReachableAfter word (gs ++ used) s' ∧
          loopCondition s' = false) ∧
      (∀ s' : RoundState, roundLoop word s guesses = RoundResult.awaitingInput s' →
        ReachableAfter word (gs ++ guesses) s' ∧
          (s' = initState word ∨ loopCondition s' = true)) := by
  intro guesses
  induction guesses with
  | nil =>
    intro gs s hr hc
    refine ⟨fun s' rest h => by simp [roundLoop] at h, fun s' h => ?_⟩
    simp only [roundLoop, RoundResult.awaitingInput.injEq] at h
    subst h
    exact ⟨by simpa using hr, hc⟩
  | cons letter ls ih =>
    intro gs s hr hc
    simp only [roundLoop]
    cases hb : roundBody word s letter with
    | none => exact ⟨fun s' rest h => (by cases h), fun s' h => (by cases h)⟩
    | some s1 =>
      simp only
      have hr1 : ReachableAfter word (gs ++ [letter]) s1 :=
        ReachableAfter.step gs s s1 letter hr hc hb
      by_cases hcond : loopCondition s1 = true
      · rw [if_pos hcond]
        obtain ⟨ih1, ih2⟩ := ih (gs ++ [letter]) s1 hr1 (Or.inr hcond)
        refine ⟨fun s' rest h => ?_, fun s' h => ?_⟩
        · obtain ⟨used, hu, hru, hcu⟩ := ih1 s' rest h
          exact ⟨letter :: used, by rw [hu]; rfl, by simpa using hru, hcu⟩
        · obtain ⟨hra, hca⟩ := ih2 s' h
          exact ⟨by simpa using hra, hca⟩
      · rw [if_neg hcond]
        refine ⟨fun s' rest h => ?_, fun s' h => by cases h⟩
        simp only [RoundResult.finished.injEq] at h
        obtain ⟨h1, h2⟩ := h
        subst h1
        subst h2
        exact ⟨[letter], rfl, hr1, by simpa using hcond⟩

theorem recordGuess_fixed (w g : List Char) (c : Char) (hlen : g.length = w.length)
    (hfix : ∀ j : Nat, w[j]? = some c → g[j]? = some c) : recordGuess w g c = some g := by
  obtain ⟨g', hg, _, hj⟩ := recordGuess_spec w g c hlen
  rw [hg]
  congr 1
  apply List.ext_getElem?
  intro j
  rw [hj j]
  by_cases h : w[j]? = some c
  · rw [if_pos h, hfix j h]
  · rw [if_neg h]

/-- At the top of every iteration of the inner loop the wrong count is from 0 to 6. -/
theorem roundDrawCalls_range (word : List Char) :
    ∀ (guesses : List Char) (s : RoundState), 0 ≤ s.numWrong → s.numWrong < 7 →
      ∀ x ∈ roundDrawCalls word s guesses, 0 ≤ x ∧ x ≤ 6 := by
  intro guesses
  induction guesses with
  | nil =>
    intro s h0 h7 x hx
    simp only [roundDrawCalls, List.mem_singleton] at hx
    subst hx
    exact ⟨h0, by omega⟩
  | cons letter ls ih =>
    intro s h0 h7 x hx
    simp only [roundDrawCalls, List.mem_cons] at hx
    rcases hx with hx | hx
    · subst hx
      exact ⟨h0, by omega⟩
    · cases hb : roundBody word s letter with
      | none => rw [hb] at hx; cases hx
      | some s1 =>
        rw [hb] at hx
        simp only at hx
        by_cases hcond : loopCondition s1 = true
        · rw [if_pos hcond] at hx
          have hn := roundBody_numWrong word s s1 letter hb
          have h71 := ((loopCondition_iff s1).1 hcond).2
          refine ih s1 ?_ h71 x hx
          rw [hn]
          split <;> omega
        · rw [if_neg hcond] at hx
          cases hx

/-! ## Claims on `getGuess` and `genSecretWord` -/

/-- C11, as stated, fails: on the input "1a", newline, "b" `getGuess` rejects only the
character '1' and returns 'a', not 'b'; and after the input "abc" has given 'a', the
next call returns 'b' from what is left of the same token. -/
theorem getGuess_not_tokenwise :
    getGuess "1a\nb\n".toList =
      some ('a', "\nb\n".toList, promptText ++ invalidText ++ promptText) ∧
    (∀ rest out : List Char, getGuess "1a\nb\n".toList ≠ some ('b', rest, out)) ∧
    getGuess "abc\n".toList = some ('a', "bc\n".toList, promptText) ∧
    getGuess "bc\n".toList = some ('b', "c\n".toList, promptText) := by
  have h1 : getGuess "1a\nb\n".toList =
      some ('a', "\nb\n".toList, promptText ++ invalidText ++ promptText) := by decide
  refine ⟨h1, fun rest out h => ?_, by decide, by decide⟩
  rw [h1] at h
  simp only [Option.some.injEq, Prod.mk.injEq] at h
  exact absurd h.1 (by decide)

/-- C11, amended: `getGuess` consumes the standard input one character at a time.
Whitespace is skipped, each other character before the first letter is rejected on
its own with a reprompt, and the result is the first letter of the input in lower
case; what follows that letter, the rest of its token included, is left in the input.
An input without a letter gives no guess. -/
theorem getGuess_consumes_to_first_letter (pre : List Char) (l : Char) (rest : List Char)
    (hpre : ∀ x ∈ pre, isalpha x = false) (ha : isalpha l = true) :
    getGuess (pre ++ l :: rest) =
      some (tolower l, rest,
        reprompts (pre.filter (fun x => !isspace x)).length ++ promptText) ∧
    (∀ input : List Char, (∀ x ∈ input, isalpha x = false) → getGuess input = none) :=
  ⟨getGuess_first_letter pre l rest hpre ha,
    fun input hno => getGuessLoop_no_letter input _ hno⟩

/-- C11 amended, on the input " 1 2Abc": two rejections, the result 'a', and "bc" left. -/
theorem getGuess_consumes_to_first_letter_witness :
    (∀ x ∈ " 1 2".toList, isalpha x = false) ∧ isalpha 'A' = true ∧
    getGuess (" 1 2".toList ++ 'A' :: "bc".toList) =
      some ('a', "bc".toList, reprompts 2 ++ promptText) ∧
    getGuess " 1 2 ".toList = none :=
  ⟨by decide, by decide,
    (getGuess_consumes_to_first_letter " 1 2".toList 'A' "bc".toList (by decide)
      (by decide)).1,
    (getGuess_consumes_to_first_letter " 1 2".toList 'A' "bc".toList (by decide)
      (by decide)).2 " 1 2 ".toList (by decide)⟩

/-- C12: when `getGuess` returns on an input, the returned character is a lowercase
letter: the first letter `l` of the input, unchanged when lowercase and 32 code points
up when uppercase. The characters before `l` are no letters; they add only reprompts to
the output, and a round run on the input is the round run on the input from `l` on,
and altogether the round run on the letters of the input. -/
theorem getGuess_returns_lowercase (input : List Char) (c : Char) (rest out : List Char)
    (h : getGuess input = some (c, rest, out)) :
    ('a' ≤ c ∧ c ≤ 'z') ∧
    ∃ (pre : List Char) (l : Char), input = pre ++ l :: rest ∧
      (∀ x ∈ pre, isalpha x = false) ∧ isalpha l = true ∧ c = tolower l ∧
      ('A' ≤ l ∧ l ≤ 'Z' → c.toNat = l.toNat + 32) ∧ ('a' ≤ l ∧ l ≤ 'z' → c = l) ∧
      out = reprompts (pre.filter (fun x => !isspace x)).length ++ promptText ∧
      (∀ (word : List Char) (s : RoundState) (fuel : Nat),
        roundLoopStdin word (fuel + 1) s input =
          roundLoopStdin word (fuel + 1) s (l :: rest)) ∧
      (∀ word : List Char,
        (playRoundStdin word input).mapRest lettersOf = playRound word (lettersOf input)) := by
  obtain ⟨pre, l, he, hp, hl, hc, hout⟩ := getGuess_some input c rest out h
  obtain ⟨h1, h2, h3, h4⟩ := tolower_of_isalpha l hl
  have hg2 : getGuess (l :: rest) = some (c, rest, promptText) := by
    have := getGuess_first_letter [] l rest (by simp) hl
    simpa [reprompts, hc] using this
  refine ⟨by rw [hc]; exact ⟨h1, h2⟩, pre, l, he, hp, hl, hc, by rw [hc]; exact h3,
    by rw [hc]; exact h4, hout, fun word s fuel => ?_, fun word => ?_⟩
  · simp only [roundLoopStdin, h, hg2]
  · exact roundLoopStdin_eq word input.length (initState word) input (le_refl _)

/-- C12, on the input "7 %C": the rejected '7' and '%' leave the round on "cat" where
the input "C" alone puts it, with 'c' revealed and wrong count 0. -/
theorem getGuess_returns_lowercase_witness :
    getGuess "7 %C".toList = some ('c', [], reprompts 2 ++ promptText) ∧
    ('a' ≤ 'c' ∧ 'c' ≤ 'z') ∧
    playRoundStdin "cat".toList "7 %C".toList =
      RoundResult.awaitingInput { guessWord := "c  ".toList, numWrong := 0 } ∧
    playRoundStdin "cat".toList "C".toList =
      RoundResult.awaitingInput { guessWord := "c  ".toList, numWrong := 0 } :=
  ⟨by decide,
    (getGuess_returns_lowercase "7 %C".toList 'c' [] (reprompts 2 ++ promptText)
      (by decide)).1,
    by decide, by decide⟩

/-- C13, on the code: with an empty dictionary `genSecretWord` computes
`std::rand() % d.size()` with `d.size()` 0, which is undefined; no error is raised. -/
theorem genSecretWord_empty_dictionary_undefined (lib : Generator) (clock state : Nat) :
    genSecretWord lib [] clock state = none := by
  simp [genSecretWord]

/-- C14: for a non-empty dictionary `d`, whatever the clock and the generator, the index
`rand() % d.size()` that `genSecretWord` computes is below the length of `d`, the access
`d[index]` is in range, and the returned word is that element of `d`. -/
theorem genSecretWord_index_in_range (lib : Generator) (d : List (List Char))
    (clock state : Nat) (hne : d ≠ []) :
    ∃ w, genSecretWord lib d clock state =
        some (w, (lib.rand (lib.srand (clock % 2 ^ 32))).2) ∧
      w ∈ d ∧
      (lib.rand (lib.srand (clock % 2 ^ 32))).1 % d.length < d.length ∧
      d[(lib.rand (lib.srand (clock % 2 ^ 32))).1 % d.length]? = some w := by
  have hpos : 0 < d.length := List.length_pos.2 hne
  have hlt : (lib.rand (lib.srand (clock % 2 ^ 32))).1 % d.length < d.length :=
    Nat.mod_lt _ hpos
  have hget : d[(lib.rand (lib.srand (clock % 2 ^ 32))).1 % d.length]? =
      some (d[(lib.rand (lib.srand (clock % 2 ^ 32))).1 % d.length]) :=
    List.getElem?_eq_getElem hlt
  refine ⟨d[(lib.rand (lib.srand (clock % 2 ^ 32))).1 % d.length], ?_,
    List.getElem_mem hlt, hlt, hget⟩
  have hz : ¬ d.length = 0 := by omega
  simp only [genSecretWord, hz, if_false, hget, Option.map_some']

/-- C14, on the dictionary ("cat", "dog", "emu") with a generator whose first value
after seeding with 100 is 105: the index is 0 and the word "cat". -/
theorem genSecretWord_index_in_range_witness :
    ["cat".toList, "dog".toList, "emu".toList] ≠ [] ∧
    genSecretWord { srand := fun seed => seed, rand := fun g => (g + 5, g + 1) }
      ["cat".toList, "dog".toList, "emu".toList] 100 0 = some ("cat".toList, 101) ∧
    ∃ w, genSecretWord { srand := fun seed => seed, rand := fun g => (g + 5, g + 1) }
        ["cat".toList, "dog".toList, "emu".toList] 100 0 = some (w, 101) ∧
      w ∈ ["cat".toList, "dog".toList, "emu".toList] ∧
      (100 % 2 ^ 32 + 5) % 3 < 3 ∧
      ["cat".toList, "dog".toList, "emu".toList][(100 % 2 ^ 32 + 5) % 3]? = some w :=
  ⟨by decide, by decide,
    genSecretWord_index_in_range { srand := fun seed => seed, rand := fun g => (g + 5, g + 1) }
      ["cat".toList, "dog".toList, "emu".toList] 100 0 (by decide)⟩

/-- C17: `genSecretWord` seeds the generator from the clock on every call, so for every
dictionary its result at a given clock second is the same whatever the state of the
generator before the call; a second call in the same second, made in the state the
first one left, returns the same word. -/
theorem genSecretWord_same_second_same_word (lib : Generator) (d : List (List Char))
    (clock g1 g2 : Nat) :
    genSecretWord lib d clock g1 = genSecretWord lib d clock g2 ∧
    (∀ (w : List Char) (g : Nat), genSecretWord lib d clock g1 = some (w, g) →
      genSecretWord lib d clock g = some (w, g)) := by
  have hsame : ∀ a b : Nat, genSecretWord lib d clock a = genSecretWord lib d clock b :=
    fun _ _ => rfl
  exact ⟨hsame g1 g2, fun w g h => by rw [hsame g g1]; exact h⟩

/-- C17, on the dictionary ("cat", "dog", "emu") at clock 100 with a generator that counts
up: the generator states 0 and 999 both give "cat", and so does a second call. -/
theorem genSecretWord_same_second_same_word_witness :
    genSecretWord { srand := fun seed => seed, rand := fun g => (g + 5, g + 1) }
        ["cat".toList, "dog".toList, "emu".toList] 100 0 = some ("cat".toList, 101) ∧
    genSecretWord { srand := fun seed => seed, rand := fun g => (g + 5, g + 1) }
        ["cat".toList, "dog".toList, "emu".toList] 100 999 = some ("cat".toList, 101) ∧
    genSecretWord { srand := fun seed => seed, rand := fun g => (g + 5, g + 1) }
        ["cat".toList, "dog".toList, "emu".toList] 100 101 = some ("cat".toList, 101) :=
  ⟨by decide, by decide,
    (genSecretWord_same_second_same_word
      { srand := fun seed => seed, rand := fun g => (g + 5, g + 1) }
      ["cat".toList, "dog".toList, "emu".toList] 100 0 999).2 "cat".toList 101 (by decide)⟩

/-! ## Lemmas for rounds whose word has a character that is never guessed -/

theorem getGuess_result_lower (c : Char)
    (h : ∃ (input rest out : List Char), getGuess input = some (c, rest, out)) :
    'a' ≤ c ∧ c ≤ 'z' := by
  obtain ⟨input, rest, out, hg⟩ := h
  obtain ⟨pre, l, _, _, hl, hc, _⟩ := getGuess_some input c rest out hg
  obtain ⟨h1, h2, _, _⟩ := tolower_of_isalpha l hl
  rw [hc]
  exact ⟨h1, h2⟩

theorem lettersOf_lower (input : List Char) : ∀ c ∈ lettersOf input, 'a' ≤ c ∧ c ≤ 'z' := by
  intro c hc
  simp only [lettersOf, List.mem_map, List.mem_filter] at hc
  obtain ⟨l, ⟨_, hl⟩, he⟩ := hc
  obtain ⟨h1, h2, _, _⟩ := tolower_of_isalpha l hl
  rw [← he]
  exact ⟨h1, h2⟩

/-- A character of the word that is no lowercase letter stays hidden while the guesses
are lowercase letters. -/
theorem isWin_false_of_unguessable (word : List Char) (x : Char) (hx : x ∈ word)
    (hnl : ¬ ('a' ≤ x ∧ x ≤ 'z')) (gs : List Char) (s : RoundState)
    (hlow : ∀ c ∈ gs, 'a' ≤ c ∧ c ≤ 'z') (h : ReachableAfter word gs s) :
    isWin s.guessWord = false := by
  have hxg : x ∉ gs := fun hin => hnl (hlow x hin)
  have hmem : ' ' ∈ s.guessWord := by
    rw [reachableAfter_guessWord word gs s h]
    simp only [revealed, List.mem_map]
    exact ⟨x, hx, by simp [hxg]⟩
  cases hw : isWin s.guessWord with
  | false => rfl
  | true => exact absurd rfl ((isWin_iff s.guessWord).1 hw ' ' hmem)

theorem finished_loss_of_unguessable (word : List Char) (x : Char) (hx : x ∈ word)
    (hnl : ¬ ('a' ≤ x ∧ x ≤ 'z')) (guesses : List Char) (s : RoundState) (rest : List Char)
    (hlow : ∀ c ∈ guesses, 'a' ≤ c ∧ c ≤ 'z')
    (h : playRound word guesses = RoundResult.finished s rest) :
    isWin s.guessWord = false ∧ s.numWrong = NUM_WRONG_ALLOWED ∧
      roundReport word s = revealWord word ++ lossBanner := by
  obtain ⟨used, hu, hr, hc⟩ :=
    (roundLoop_reachableAfter word guesses [] (initState word) ReachableAfter.init
      (Or.inl rfl)).1 s rest h
  rw [List.nil_append] at hr
  have hwin : isWin s.guessWord = false :=
    isWin_false_of_unguessable word x hx hnl used s
      (fun c hcu => hlow c (by rw [hu]; exact List.mem_append_left rest hcu)) hr
  obtain ⟨_, _, h7, _⟩ := reachable_inv word s (reachableAfter_reachable word used s hr)
  have hnot : ¬ (loopCondition s = true) := by simp [hc]
  rw [loopCondition_iff] at hnot
  have hge : ¬ (s.numWrong < 7) := fun hlt => hnot ⟨hwin, hlt⟩
  refine ⟨hwin, ?_, by simp [roundReport, hwin]⟩
  simp only [NUM_WRONG_ALLOWED]
  omega

/-! ## Claims on repeated guesses, the history of a round and the figure drawn -/

/-- C15: for every round state with wrong count below 7 and every letter `c` that is not
in the secret word, a guess of `c` adds exactly 1 to the wrong count and leaves the
reveal state unchanged, also when `c` is among the letters guessed before; a second
guess of `c` adds 1 again, and seven guesses of `c` on a non-empty word lose the round. -/
theorem repeated_wrong_guess_counts_again (word : List Char) (s : RoundState) (c : Char)
    (_hlt : s.numWrong < NUM_WRONG_ALLOWED) (hc : letterIsInWord c word = false) :
    roundBody word s c = some { guessWord := s.guessWord, numWrong := s.numWrong + 1 } ∧
    (∀ gs : List Char, ReachableAfter word gs s → c ∈ gs →
      roundBody word s c = some { guessWord := s.guessWord, numWrong := s.numWrong + 1 }) ∧
    (roundBody word s c).bind (fun s1 => roundBody word s1 c) =
      some { guessWord := s.guessWord, numWrong := s.numWrong + 1 + 1 } ∧
    (word ≠ [] →
      playRound word (List.replicate 7 c) =
        RoundResult.finished { guessWord := List.replicate word.length ' ', numWrong := 7 } [] ∧
      roundReport word { guessWord := List.replicate word.length ' ', numWrong := 7 } =
        revealWord word ++ lossBanner) := by
  have hmem : c ∉ word := (letterIsInWord_eq_false_iff c word).1 hc
  have h1 := roundBody_wrong word s c hmem
  refine ⟨h1, fun _ _ _ => h1, ?_, fun hne => ?_⟩
  · rw [h1]
    exact roundBody_wrong word _ c hmem
  · have hblank := isWin_replicate_blank word.length (List.length_pos.2 hne)
    have hinit : initState word =
        { guessWord := List.replicate word.length ' ', numWrong := ((0 : Nat) : Int) } := by
      simp [initState, fillBlanks_eq]
    have hall : ∀ x ∈ List.replicate 7 c, x ∉ word := by
      intro x hx
      rw [List.eq_of_mem_replicate hx]
      exact hmem
    have := (roundLoop_wrong word _ hblank (List.replicate 7 c) 0 hall).2 (by decide)
      (by simp)
    refine ⟨?_, by simp [roundReport, hblank]⟩
    rw [playRound, hinit, this]
    simp

/-- C15, on the word "dog" after the guess x: a second guess x makes the wrong count 2,
and seven guesses x lose the round. -/
theorem repeated_wrong_guess_counts_again_witness :
    ReachableAfter "dog".toList ([] ++ ['x']) { guessWord := "   ".toList, numWrong := 1 } ∧
    roundBody "dog".toList { guessWord := "   ".toList, numWrong := 1 } 'x' =
      some { guessWord := "   ".toList, numWrong := 1 + 1 } ∧
    playRound "dog".toList (List.replicate 7 'x') =
      RoundResult.finished
        { guessWord := List.replicate "dog".toList.length ' ', numWrong := 7 } [] :=
  ⟨ReachableAfter.step [] (initState "dog".toList) _ 'x' ReachableAfter.init (Or.inl rfl)
      (by decide),
    (repeated_wrong_guess_counts_again "dog".toList
      { guessWord := "   ".toList, numWrong := 1 } 'x' (by decide) (by decide)).2.1
      ([] ++ ['x'])
      (ReachableAfter.step [] (initState "dog".toList) _ 'x' ReachableAfter.init (Or.inl rfl)
        (by decide))
      (by decide),
    ((repeated_wrong_guess_counts_again "dog".toList
      { guessWord := "   ".toList, numWrong := 1 } 'x' (by decide) (by decide)).2.2.2
      (by decide)).1⟩

/-- C16: for a reveal state `g` as long as the secret word `w`, recording the letter `c`
twice gives what recording it once gives; and a guess step with a letter of the word
that the reveal state already shows at all its positions leaves the reveal state and
the wrong count unchanged, as does repeating a guess step with a letter of the word. -/
theorem repeated_correct_guess_no_effect (w g : List Char) (c : Char)
    (hlen : g.length = w.length) :
    (recordGuess w g c).bind (fun g' => recordGuess w g' c) = recordGuess w g c ∧
    (∀ s : RoundState, s.guessWord = g → c ∈ w →
      (∀ j : Nat, w[j]? = some c → g[j]? = some c) → roundBody w s c = some s) ∧
    (∀ s s' : RoundState, s.guessWord = g → c ∈ w → roundBody w s c = some s' →
      roundBody w s' c = some s') := by
  obtain ⟨g1, hg1, hl1, hj1⟩ := recordGuess_spec w g c hlen
  have hfix1 : recordGuess w g1 c = some g1 :=
    recordGuess_fixed w g1 c (by omega) (fun j h => by rw [hj1 j, if_pos h])
  refine ⟨by rw [hg1]; exact hfix1, fun s hs hc hshown => ?_, fun s s' hs hc hb => ?_⟩
  · have hin := (letterIsInWord_iff c w).2 hc
    have hrec := recordGuess_fixed w g c hlen hshown
    subst hs
    simp [roundBody, hin, hrec]
  · have hin := (letterIsInWord_iff c w).2 hc
    simp only [roundBody, hin, if_true, hs, hg1, Option.map_some', Option.some.injEq] at hb
    subst hb
    simp [roundBody, hin, hfix1]

/-- C16, on the word "hello": recording 'l' in "h ll " changes nothing, and the guess
step with 'l' leaves the state with wrong count 2 as it is. -/
theorem repeated_correct_guess_no_effect_witness :
    "h    ".toList.length = "hello".toList.length ∧
    recordGuess "hello".toList "h    ".toList 'l' = some "h ll ".toList ∧
    recordGuess "hello".toList "h ll ".toList 'l' = some "h ll ".toList ∧
    roundBody "hello".toList { guessWord := "h ll ".toList, numWrong := 2 } 'l' =
      some { guessWord := "h ll ".toList, numWrong := 2 } :=
  ⟨by decide, by decide, by decide,
    (repeated_correct_guess_no_effect "hello".toList "h    ".toList 'l' (by decide)).2.2
      { guessWord := "h    ".toList, numWrong := 2 }
      { guessWord := "h ll ".toList, numWrong := 2 } rfl (by decide) (by decide)⟩

/-- C18: in every state of a round, reached after the guesses `gs`, position `i` of the
reveal state holds `word[i]` when that letter is among `gs` and the placeholder
otherwise, so two positions with the same letter of the word hold the same character;
the state in which a run of the round loop ends or waits is such a state, after the
guesses it consumed. -/
theorem guessWord_shows_guessed_letters (word : List Char) :
    (∀ (gs : List Char) (s : RoundState), ReachableAfter word gs s →
      s.guessWord = revealed word gs ∧
      (∀ (i : Nat) (c : Char), word[i]? = some c →
        s.guessWord[i]? = some (if c ∈ gs then c else ' ')) ∧
      (∀ i j : Nat, i < word.length → word[i]? = word[j]? →
        s.guessWord[i]? = s.guessWord[j]?)) ∧
    (∀ (guesses : List Char) (s : RoundState) (rest : List Char),
      playRound word guesses = RoundResult.finished s rest →
      ∃ used, guesses = used ++ rest ∧ ReachableAfter word used s) ∧
    (∀ (guesses : List Char) (s : RoundState),
      playRound word guesses = RoundResult.awaitingInput s →
      ReachableAfter word guesses s) := by
  refine ⟨fun gs s h => ?_, fun guesses s rest h => ?_, fun guesses s h => ?_⟩
  · have hg := reachableAfter_guessWord word gs s h
    have hpos : ∀ (i : Nat) (c : Char), word[i]? = some c →
        s.guessWord[i]? = some (if c ∈ gs then c else ' ') := by
      intro i c hi
      rw [hg]
      simp [revealed, hi]
    refine ⟨hg, hpos, fun i j hi hij => ?_⟩
    have hsome : word[i]? = some word[i] := List.getElem?_eq_getElem hi
    rw [hpos i _ hsome, hpos j _ (hij ▸ hsome)]
  · obtain ⟨used, hu, hr, _⟩ :=
      (roundLoop_reachableAfter word guesses [] (initState word) ReachableAfter.init
        (Or.inl rfl)).1 s rest h
    exact ⟨used, hu, by simpa using hr⟩
  · have := ((roundLoop_reachableAfter word guesses [] (initState word) ReachableAfter.init
      (Or.inl rfl)).2 s h).1
    simpa using this

/-- C18, on the word "hello" after the guesses l, x, h: the reveal state is "h ll ",
and the two positions of 'l' hold the same character. -/
theorem guessWord_shows_guessed_letters_witness :
    playRound "hello".toList "lxh".toList =
      RoundResult.awaitingInput { guessWord := "h ll ".toList, numWrong := 1 } ∧
    ReachableAfter "hello".toList "lxh".toList { guessWord := "h ll ".toList, numWrong := 1 } ∧
    "h ll ".toList = revealed "hello".toList "lxh".toList ∧
    "h ll ".toList[2]? = "h ll ".toList[3]? :=
  ⟨by decide,
    (guessWord_shows_guessed_letters "hello".toList).2.2 "lxh".toList _ (by decide),
    ((guessWord_shows_guessed_letters "hello".toList).1 "lxh".toList
      { guessWord := "h ll ".toList, numWrong := 1 }
      ((guessWord_shows_guessed_letters "hello".toList).2.2 "lxh".toList _ (by decide))).1,
    ((guessWord_shows_guessed_letters "hello".toList).1 "lxh".toList
      { guessWord := "h ll ".toList, numWrong := 1 }
      ((guessWord_shows_guessed_letters "hello".toList).2.2 "lxh".toList _
        (by decide))).2.2 2 3 (by decide) (by decide)⟩

/-- C19: every call `drawHangman(numWrong)` of the round loop has an argument from 0 to 6;
the argument is never 7, and the figure with all seven body parts is not the figure of
any call. -/
theorem drawHangman_called_below_seven (word guesses : List Char) :
    ∀ x ∈ roundDrawCalls word (initState word) guesses,
      0 ≤ x ∧ x ≤ 6 ∧ x ≠ NUM_WRONG_ALLOWED ∧ bodyParts x < 7 ∧ bodyParts 7 = 7 ∧
        drawHangman x ≠ drawHangman 7 := by
  intro x hx
  obtain ⟨h0, h6⟩ := roundDrawCalls_range word guesses (initState word)
    (by simp [initState]) (by simp [initState]) x hx
  refine ⟨h0, h6, by simp only [NUM_WRONG_ALLOWED]; omega, ?_, by decide!, ?_⟩
  · interval_cases x <;> decide!
  · interval_cases x <;> decide!

/-- C19, on the word "dog" with seven wrong guesses: the calls have the arguments 0 to 6,
and the round ends with wrong count 7 without a further call. -/
theorem drawHangman_called_below_seven_witness :
    roundDrawCalls "dog".toList (initState "dog".toList) "xyzqwvu".toList =
      [0, 1, 2, 3, 4, 5, 6] ∧
    playRound "dog".toList "xyzqwvu".toList =
      RoundResult.finished { guessWord := "   ".toList, numWrong := 7 } [] ∧
    ((0 : Int) ≤ 6 ∧ (6 : Int) ≤ 6 ∧ (6 : Int) ≠ NUM_WRONG_ALLOWED ∧ bodyParts 6 < 7 ∧
      bodyParts 7 = 7 ∧ drawHangman 6 ≠ drawHangman 7) :=
  ⟨by decide, by decide,
    drawHangman_called_below_seven "dog".toList "xyzqwvu".toList 6 (by decide)⟩

/-- C20: if the secret word has a character that is no lowercase letter, then with
guesses that `getGuess` returned no state of the round has a complete reveal state,
and a round that ends, on a list of such guesses or on a standard input, ends with
wrong count 7 and the loss text. -/
theorem non_lowercase_word_is_lost (word : List Char) (x : Char) (hx : x ∈ word)
    (hnl : ¬ ('a' ≤ x ∧ x ≤ 'z')) :
    (∀ (gs : List Char) (s : RoundState),
      (∀ c ∈ gs, ∃ (input rest out : List Char), getGuess input = some (c, rest, out)) →
      ReachableAfter word gs s → isWin s.guessWord = false) ∧
    (∀ (guesses : List Char) (s : RoundState) (rest : List Char),
      (∀ c ∈ guesses, ∃ (input rest out : List Char), getGuess input = some (c, rest, out)) →
      playRound word guesses = RoundResult.finished s rest →
      isWin s.guessWord = false ∧ s.numWrong = NUM_WRONG_ALLOWED ∧
        roundReport word s = revealWord word ++ lossBanner) ∧
    (∀ (input : List Char) (s : RoundState) (rest : List Char),
      playRoundStdin word input = RoundResult.finished s rest →
      isWin s.guessWord = false ∧ s.numWrong = NUM_WRONG_ALLOWED ∧
        roundReport word s = revealWord word ++ lossBanner) := by
  refine ⟨fun gs s hg h => ?_, fun guesses s rest hg h => ?_, fun input s rest h => ?_⟩
  · exact isWin_false_of_unguessable word x hx hnl gs s
      (fun c hc => getGuess_result_lower c (hg c hc)) h
  · exact finished_loss_of_unguessable word x hx hnl guesses s rest
      (fun c hc => getGuess_result_lower c (hg c hc)) h
  · have hlink := roundLoopStdin_eq word input.length (initState word) input (le_refl _)
    have h2 : playRound word (lettersOf input) = RoundResult.finished s (lettersOf rest) := by
      rw [playRound, ← hlink]
      rw [playRoundStdin] at h
      rw [h]
      rfl
    exact finished_loss_of_unguessable word x hx hnl (lettersOf input) s (lettersOf rest)
      (lettersOf_lower input) h2

/-- C20, on the word "Cat": the input "CATcat" and seven more letters reveals "at" only,
and the round ends as a loss with wrong count 7. -/
theorem non_lowercase_word_is_lost_witness :
    'C' ∈ "Cat".toList ∧ ¬ ('a' ≤ 'C' ∧ 'C' ≤ 'z') ∧
    playRoundStdin "Cat".toList "CAT cat\nxyzqw".toList =
      RoundResult.finished { guessWord := " at".toList, numWrong := 7 } [] ∧
    (isWin " at".toList = false ∧ (7 : Int) = NUM_WRONG_ALLOWED ∧
      roundReport "Cat".toList { guessWord := " at".toList, numWrong := 7 } =
        revealWord "Cat".toList ++ lossBanner) :=
  ⟨by decide, by decide, by decide,
    (non_lowercase_word_is_lost "Cat".toList 'C' (by decide) (by decide)).2.2
      "CAT cat\nxyzqw".toList { guessWord := " at".toList, numWrong := 7 } [] (by decide)⟩

end Hangman
